import Mathlib

set_option maxRecDepth 100000

/-! Shallow embedding of the Lunor language tooling core: the parser
`parseLunor` and its line classifiers from `server/src/parser/lunorParser.ts`,
the fetch code generator `generateFetchNode` from the same file, and the
document-symbol projection `generateDocumentSymbols` from
`server/src/documentSymbols.ts`.

Strings are modelled as `List Char`.  JavaScript regular expressions are
modelled by deterministic matching functions that implement the observable
match semantics of the concrete patterns appearing in the source (greedy
runs over disjoint character classes, with explicit backtracking where the
pattern needs it).  Positional metadata (`startLine`/`startColumn` spans
attached by `attachPosition`) is not modelled: no verified property
concerns source spans.  Human-readable diagnostic `message` strings, which
partly come from host-engine error objects, are likewise not modelled;
diagnostics keep their machine-readable `code`, `line`, severity and
character range. -/

/-- Character list of a string literal. -/
def chars (s : String) : List Char := s.toList

/-- Model of the JavaScript regex class `\s` (whitespace) restricted to the
ASCII whitespace characters that can occur in the parser's inputs. -/
def jsIsSpace (c : Char) : Bool :=
  c = ' ' || c = '\t' || c = '\n' || c = '\r' || c = '\x0b' || c = '\x0c'

/-- Model of the JavaScript regex class `\w`: ASCII letters, digits, `_`. -/
def isWordChar (c : Char) : Bool :=
  ('a' ≤ c && c ≤ 'z') || ('A' ≤ c && c ≤ 'Z') || ('0' ≤ c && c ≤ '9') || c = '_'

/-- Model of JavaScript `String.prototype.trim` (both-ends whitespace strip). -/
def jsTrim (l : List Char) : List Char :=
  ((l.dropWhile jsIsSpace).reverse.dropWhile jsIsSpace).reverse

/-- Leading-whitespace width of a line: `line.match(/^\s*/)?.[0].length || 0`. -/
def indentOf (l : List Char) : Nat := (l.takeWhile jsIsSpace).length

/-- Model of `text.split("\n")` (JavaScript semantics: never empty, an empty
string splits to one empty piece). -/
def splitNl : List Char → List (List Char)
  | [] => [[]]
  | c :: rest =>
    if c = '\n' then [] :: splitNl rest
    else
      match splitNl rest with
      | [] => [[c]]
      | h :: t => (c :: h) :: t

/-- Model of `line.replace(/\r$/, "")`: drop one trailing carriage return. -/
def stripCR (l : List Char) : List Char :=
  match l.getLast? with
  | some '\r' => l.dropLast
  | _ => l

/-- The line list `parseLunor` works on. -/
def jsLines (text : List Char) : List (List Char) := (splitNl text).map stripCR

/-- Boolean prefix test on character lists. -/
def hasPre : List Char → List Char → Bool
  | [], _ => true
  | _ :: _, [] => false
  | p :: ps, c :: cs => p = c && hasPre ps cs

/-- Model of `String.prototype.indexOf` for a needle, returning `-1` when the
needle does not occur. -/
def jsIndexOfAux (sub : List Char) : List Char → Nat → Int
  | [], i => if hasPre sub [] then (i : Int) else -1
  | l@(_ :: rest), i => if hasPre sub l then (i : Int) else jsIndexOfAux sub rest (i + 1)

/-- First occurrence index of `sub` in `l`, JavaScript `indexOf` semantics. -/
def jsIndexOf (l sub : List Char) : Int := jsIndexOfAux sub l 0

/-- Model of `String.prototype.replace` with a plain-string pattern: replace
the first occurrence only. -/
def replaceFirst : List Char → List Char → List Char → List Char
  | [], pat, rep => if hasPre pat [] then rep else []
  | l@(c :: rest), pat, rep =>
    if hasPre pat l then rep ++ List.drop pat.length l
    else c :: replaceFirst rest pat rep

/-- ASCII uppercase map (`String.prototype.toUpperCase` on ASCII input). -/
def jsToUpper (l : List Char) : List Char := l.map Char.toUpper

/-- ASCII lowercase map (`String.prototype.toLowerCase` on ASCII input). -/
def jsToLower (l : List Char) : List Char := l.map Char.toLower

/-- A run of `n` spaces, used to build indented lines in theorems. -/
def spaces (n : Nat) : List Char := List.replicate n ' '

/-! JSON value model.  `parseData` calls the host builtin `JSON.parse`; the
builtin (not repository code) is modelled here by a strict JSON
recursive-descent parser.  Numbers keep their source lexeme: no claim
inspects numeric values, so IEEE-754 semantics are not needed. -/

/-- JSON values as produced by the modelled `JSON.parse`. -/
inductive JVal where
  | jnull
  | jbool (b : Bool)
  | jnum (lexeme : List Char)
  | jstr (s : List Char)
  | jarr (elems : List JVal)
  | jobj (fields : List (List Char × JVal))

/-- JSON insignificant whitespace. -/
def jsonWs (c : Char) : Bool := c = ' ' || c = '\t' || c = '\n' || c = '\r'

/-- Decimal digit test. -/
def isDigit (c : Char) : Bool := '0' ≤ c && c ≤ '9'

/-- Hexadecimal digit test. -/
def isHexDigit (c : Char) : Bool :=
  isDigit c || ('a' ≤ c && c ≤ 'f') || ('A' ≤ c && c ≤ 'F')

/-- Value of one hexadecimal digit. -/
def hexVal (c : Char) : Nat :=
  if isDigit c then c.toNat - '0'.toNat
  else if 'a' ≤ c && c ≤ 'f' then c.toNat - 'a'.toNat + 10
  else if 'A' ≤ c && c ≤ 'F' then c.toNat - 'A'.toNat + 10
  else 0

/-- JSON string body after the opening quote: returns content and remainder. -/
def jsonString : List Char → Option (List Char × List Char)
  | [] => none
  | '"' :: rest => some ([], rest)
  | '\\' :: 'u' :: h1 :: h2 :: h3 :: h4 :: rest =>
    if isHexDigit h1 && isHexDigit h2 && isHexDigit h3 && isHexDigit h4 then
      (jsonString rest).map fun p =>
        (Char.ofNat (((hexVal h1 * 16 + hexVal h2) * 16 + hexVal h3) * 16 + hexVal h4) :: p.1,
         p.2)
    else none
  | '\\' :: e :: rest =>
    let esc : Option Char :=
      if e = '"' then some '"'
      else if e = '\\' then some '\\'
      else if e = '/' then some '/'
      else if e = 'b' then some '\x08'
      else if e = 'f' then some '\x0c'
      else if e = 'n' then some '\n'
      else if e = 'r' then some '\r'
      else if e = 't' then some '\t'
      else none
    match esc with
    | some c => (jsonString rest).map fun p => (c :: p.1, p.2)
    | none => none
  | c :: rest =>
    if c.toNat < 32 then none
    else (jsonString rest).map fun p => (c :: p.1, p.2)

/-- JSON number lexeme (strict JSON grammar); returns lexeme and remainder. -/
def jsonNum (l : List Char) : Option (List Char × List Char) :=
  let (sign, l1) :=
    match l with
    | '-' :: rest => ((['-'] : List Char), rest)
    | _ => (([] : List Char), l)
  let intPart : Option (List Char × List Char) :=
    match l1 with
    | '0' :: rest => some (['0'], rest)
    | c :: _ =>
      if isDigit c then some (l1.takeWhile isDigit, l1.dropWhile isDigit) else none
    | [] => none
  match intPart with
  | none => none
  | some (ip, l2) =>
    let (fp, l3) :=
      match l2 with
      | '.' :: rest =>
        if (rest.takeWhile isDigit) = ([] : List Char) then (none, l2)
        else (some ('.' :: rest.takeWhile isDigit), rest.dropWhile isDigit)
      | _ => ((none : Option (List Char)), l2)
    match fp, l2 with
    | none, '.' :: _ => none
    | _, _ =>
      let (ep, l4) :=
        match l3 with
        | e :: rest =>
          if e = 'e' || e = 'E' then
            let (sgn, rest2) :=
              match rest with
              | s :: r2 => if s = '+' || s = '-' then (([s] : List Char), r2) else (([] : List Char), rest)
              | [] => (([] : List Char), rest)
            if (rest2.takeWhile isDigit) = ([] : List Char) then (none, l3)
            else (some (e :: sgn ++ rest2.takeWhile isDigit), rest2.dropWhile isDigit)
          else ((none : Option (List Char)), l3)
        | [] => ((none : Option (List Char)), l3)
      match ep, l3 with
      | none, e :: _ =>
        if e = 'e' || e = 'E' then none
        else some (sign ++ ip ++ fp.getD [] , l3)
      | none, [] => some (sign ++ ip ++ fp.getD [], l3)
      | some ex, _ => some (sign ++ ip ++ fp.getD [] ++ ex, l4)

mutual

/-- One JSON value (fuel-indexed recursive descent, modelling `JSON.parse`). -/
def jsonVal : Nat → List Char → Option (JVal × List Char)
  | 0, _ => none
  | fuel + 1, l =>
    let l := l.dropWhile jsonWs
    match l with
    | 'n' :: 'u' :: 'l' :: 'l' :: rest => some (.jnull, rest)
    | 't' :: 'r' :: 'u' :: 'e' :: rest => some (.jbool true, rest)
    | 'f' :: 'a' :: 'l' :: 's' :: 'e' :: rest => some (.jbool false, rest)
    | '"' :: rest => (jsonString rest).map fun p => (.jstr p.1, p.2)
    | '[' :: rest =>
      let r2 := rest.dropWhile jsonWs
      match r2 with
      | ']' :: r3 => some (.jarr [], r3)
      | _ => (jsonArrItems fuel rest).map fun p => (.jarr p.1, p.2)
    | '{' :: rest =>
      let r2 := rest.dropWhile jsonWs
      match r2 with
      | '}' :: r3 => some (.jobj [], r3)
      | _ => (jsonObjItems fuel rest).map fun p => (.jobj p.1, p.2)
    | _ => (jsonNum l).map fun p => (.jnum p.1, p.2)

/-- Comma-separated JSON array elements up to the closing bracket. -/
def jsonArrItems : Nat → List Char → Option (List JVal × List Char)
  | 0, _ => none
  | fuel + 1, l =>
    match jsonVal fuel l with
    | none => none
    | some (v, rest) =>
      match rest.dropWhile jsonWs with
      | ']' :: r2 => some ([v], r2)
      | ',' :: r2 => (jsonArrItems fuel r2).map fun p => (v :: p.1, p.2)
      | _ => none

/-- Comma-separated JSON object members up to the closing brace. -/
def jsonObjItems : Nat → List Char → Option (List (List Char × JVal) × List Char)
  | 0, _ => none
  | fuel + 1, l =>
    match (l.dropWhile jsonWs) with
    | '"' :: r1 =>
      match jsonString r1 with
      | none => none
      | some (k, r2) =>
        match r2.dropWhile jsonWs with
        | ':' :: r3 =>
          match jsonVal fuel r3 with
          | none => none
          | some (v, r4) =>
            match r4.dropWhile jsonWs with
            | '}' :: r5 => some ([(k, v)], r5)
            | ',' :: r5 => (jsonObjItems fuel r5).map fun p => ((k, v) :: p.1, p.2)
            | _ => none
        | _ => none
    | _ => none

end

/-- Model of the host builtin `JSON.parse`, `none` on a syntax error. -/
def jsonParse (l : List Char) : Option JVal :=
  match jsonVal (2 * l.length + 2) l with
  | some (v, rest) => if rest.dropWhile jsonWs = ([] : List Char) then some v else none
  | none => none

/-! AST node model (`server/src/parser/types.ts`). -/

/-- The `string | AstNode` union used for markdown text values, attribute
values and `Text` payloads: a literal string or an `Expression` leaf. -/
inductive TextVal where
  | lit (s : List Char)
  | expr (v : List Char)

/-- Component property values (`string | number | boolean | AstNode`, the
node case always an `Expression`).  Numbers keep their source lexeme. -/
inductive PropVal where
  | str (s : List Char)
  | num (lexeme : List Char)
  | bool (b : Bool)
  | expr (v : List Char)

/-- Declaration values for `Data`/`State`: a parsed JSON literal or an
`Expression` node. -/
inductive DVal where
  | json (j : JVal)
  | expr (v : List Char)

/-- AST nodes of the current parser.  Constructor names follow the node
`type` tags; `variable` is shortened to `var` (Lean keyword). -/
inductive Ast where
  | comment (value : List Char)
  | dataN (name : List Char) (value : DVal)
  | stateN (name : List Char) (value : DVal)
  | text (value : TextVal)
  | markdown (tag : List Char) (value : Option TextVal)
      (attributes : List (List Char × TextVal)) (children : List Ast)
  | component (name : List Char) (props : List (List Char × PropVal))
      (children : List Ast)
  | forN (var coll : List Char) (children : List Ast)
  | ifN (condition : List Char) (children : List Ast)
  | fetchN (url method : List Char) (headers : List (List Char × List Char))
      (body : Option (List Char)) (var initVar : Option (List Char))
  | jsN (body : List (List Char))

/-- `DiagnosticSeverity.Error` from the language-server protocol. -/
def severityError : Nat := 1

/-- Diagnostic records: machine-readable fields only (human-readable
`message` text, partly host-engine generated, is not modelled). -/
structure Diag where
  line : Nat
  severity : Nat
  sLine : Nat
  sChar : Int
  eLine : Nat
  eChar : Int
  code : Option (List Char)
deriving DecidableEq

/-- One parsed signature parameter (`name[?]:type`). -/
structure ParamSpec where
  name : List Char
  type : List Char
  optional : Bool
deriving DecidableEq

/-- The component signature; `props` is absent when the whole first line
failed the signature regex. -/
structure ParentComp where
  name : List Char
  props : Option (List ParamSpec)
deriving DecidableEq

/-- One indentation-stack entry.  The source pushes the node object by
reference and keeps mutating it through the alias; the functional embedding
instead accumulates the children inside the frame's node and attaches it to
its parent only when the frame is popped, which produces the same tree in
the same child order. -/
structure Frame where
  node : Ast
  indent : Nat

/-- The mutable parse context threaded through the classifiers. -/
structure Ctx where
  stack : List Frame
  ast : List Ast
  diagnostics : List Diag
  imports : List (List Char)
  parentComponent : Option ParentComp
  currentLine : Nat

/-- Fresh context for one `parseLunor` invocation. -/
def initCtx : Ctx :=
  { stack := [], ast := [], diagnostics := [], imports := [],
    parentComponent := none, currentLine := 0 }

/-- Result record of `parseLunor`. -/
structure ParseResult where
  ast : List Ast
  diagnostics : List Diag
  component : Option ParentComp
  imports : List (List Char)

/-! Regex models for the patterns in the parse context. -/

/-- Capture scan of the lazy interpolation regex `\{(.+?)\}` after its first
mandatory inner character: content up to (and consuming) the first closing
brace; `.` does not match a newline. -/
def exprInnerFrom : List Char → Option (List Char)
  | [] => none
  | c :: rest =>
    if c = '\x7d' then some []
    else if c = '\n' then none
    else (exprInnerFrom rest).map (c :: ·)

/-- Leftmost match of `\{(.+?)\}` returning the capture (JavaScript
`String.prototype.match` semantics on the unanchored pattern). -/
def exprFirstMatch : List Char → Option (List Char)
  | [] => none
  | c :: rest =>
    let here : Option (List Char) :=
      if c = '\x7b' then
        match rest with
        | c0 :: r2 => if c0 = '\n' then none else (exprInnerFrom r2).map (c0 :: ·)
        | [] => none
      else none
    match here with
    | some v => some v
    | none => exprFirstMatch rest

/-- Expression extractor `parseExpression(text, exprRegex)`: an `Expression`
leaf when the interpolation pattern matches, otherwise the literal text. -/
def parseExpression (text : List Char) : TextVal :=
  match exprFirstMatch text with
  | some v => .expr v
  | none => .lit text

/-- Match of a `\s+(.+)$` regex tail: one-or-more whitespace then a
non-empty newline-free capture; on an all-whitespace tail the greedy run
backtracks one character so `.` consumes the final one. -/
def wsCapTail (l : List Char) : Option (List Char) :=
  match l with
  | c :: _ =>
    if jsIsSpace c then
      let content := l.dropWhile jsIsSpace
      if content ≠ ([] : List Char) then
        if content.contains '\n' then none else some content
      else
        match l.getLast? with
        | some d => if l.length ≥ 2 && !(d = '\n') then some [d] else none
        | none => none
    else none
  | [] => none

/-- Match of `/^:data\s+(\w+)=(.+)$/` (or the `:state` analogue via `kw`),
returning the name and value captures. -/
def declMatch (kw : List Char) (line : List Char) : Option (List Char × List Char) :=
  if hasPre kw line then
    match List.drop kw.length line with
    | c :: _ =>
      if jsIsSpace c then
        let r2 := (List.drop kw.length line).dropWhile jsIsSpace
        let name := r2.takeWhile isWordChar
        if name = ([] : List Char) then none
        else
          match List.drop name.length r2 with
          | '=' :: v =>
            if v ≠ ([] : List Char) && !(v.contains '\n') then some (name, v) else none
          | _ => none
      else none
    | [] => none
  else none

/-- The `dataRegex` match. -/
def dataMatch (line : List Char) : Option (List Char × List Char) :=
  declMatch (chars (":data")) line

/-- The `stateRegex` match. -/
def stateMatch (line : List Char) : Option (List Char × List Char) :=
  declMatch (chars (":state")) line

/-- Start set `[A-Za-z_$]` of the bare-expression regex. -/
def isIdentStart (c : Char) : Bool :=
  ('a' ≤ c && c ≤ 'z') || ('A' ≤ c && c ≤ 'Z') || c = '_' || c = '$'

/-- Continuation set `[\w$]`. -/
def isIdentChar (c : Char) : Bool := isWordChar c || c = '$'

mutual

/-- Inside an identifier of the member chain `(?:\.[A-Za-z_$][\w$]*)*$`:
consume identifier characters, then expect a dot chain or the end. -/
def memIdent : List Char → Bool
  | [] => true
  | c :: rest => if isIdentChar c then memIdent rest else c = '.' && memHead rest

/-- Right after a dot of the member chain: one identifier start required. -/
def memHead : List Char → Bool
  | [] => false
  | c :: rest => isIdentStart c && memIdent rest

end

/-- The member chain `(?:\.[A-Za-z_$][\w$]*)*$` from its start. -/
def memberGroups : List Char → Bool
  | [] => true
  | c :: rest => c = '.' && memHead rest

/-- Boolean match of the bare call/member regex
`/^([A-Za-z_$][\w$]*\([^)]*\)(?:\.[A-Za-z_$][\w$]*)*)$/` (the capture is the
whole string). -/
def fnShape : List Char → Bool
  | [] => false
  | c :: rest =>
    isIdentStart c &&
      (match rest.dropWhile isIdentChar with
       | '(' :: r3 =>
         (match List.drop ((r3.takeWhile (fun d => !(d = ')'))).length) r3 with
          | ')' :: r5 => memberGroups r5
          | _ => false)
       | _ => false)

/-- Quote normalization `value.replace(/'/g, '"')`. -/
def normalizeQuotes (l : List Char) : List Char :=
  l.map fun c => if c = '\x27' then '"' else c

/-- Classifier `parseData`: `:data`/`:state` declarations.  A `:data` value
matching the bare call/member shape becomes an `Expression`; otherwise (and
always, for `:state`) the quote-normalized value is passed to the modelled
`JSON.parse`; failure drops the node and records an
`InvalidDataValue`/`InvalidStateValue` diagnostic. -/
def parseData (line : List Char) (ctx : Ctx) : Option Ast × Ctx :=
  match dataMatch line with
  | some (name, value) =>
    let rawVal := jsTrim value
    if fnShape rawVal then (some (.dataN name (.expr rawVal)), ctx)
    else
      match jsonParse (normalizeQuotes value) with
      | some j => (some (.dataN name (.json j)), ctx)
      | none =>
        let charIndex := jsIndexOf line value
        (none,
         { ctx with diagnostics := ctx.diagnostics ++
            [{ line := ctx.currentLine + 1, severity := severityError,
               sLine := ctx.currentLine, sChar := charIndex,
               eLine := ctx.currentLine, eChar := charIndex + value.length,
               code := some (chars ("InvalidDataValue")) }] })
  | none =>
    match stateMatch line with
    | some (name, value) =>
      match jsonParse (normalizeQuotes value) with
      | some j => (some (.stateN name (.json j)), ctx)
      | none =>
        let charIndex := jsIndexOf line value
        (none,
         { ctx with diagnostics := ctx.diagnostics ++
            [{ line := ctx.currentLine + 1, severity := severityError,
               sLine := ctx.currentLine, sChar := charIndex,
               eLine := ctx.currentLine, eChar := charIndex + value.length,
               code := some (chars ("InvalidStateValue")) }] })
    | none => (none, ctx)

/-- Classifier `parseComment`: lines whose trimmed text starts with `//`. -/
def parseComment (line : List Char) (ctx : Ctx) : Option Ast × Ctx :=
  if hasPre (chars ("//")) (jsTrim line) then
    (some (.comment (jsTrim (List.drop 2 (jsTrim line)))), ctx)
  else (none, ctx)

/-- Classifier `parseFunction`: a trimmed line exactly `:js` opens an inline
script block (positional signature data is not modelled). -/
def parseFunction (line : List Char) (ctx : Ctx) : Option Ast × Ctx :=
  if jsTrim line = chars (":js") then (some (.jsN []), ctx) else (none, ctx)

/-- Match of `/^:(?:for|forEach)\s+(\w+)\s+in\s+([\w.]+)$/`: the loop
variable and the dotted collection path. -/
def forMatch (l : List Char) : Option (List Char × List Char) :=
  match l with
  | ':' :: r1 =>
    let r2opt : Option (List Char) :=
      if hasPre (chars ("forEach")) r1 then some (List.drop 7 r1)
      else if hasPre (chars ("for")) r1 then some (List.drop 3 r1)
      else none
    match r2opt with
    | none => none
    | some r2 =>
      match r2 with
      | c :: _ =>
        if jsIsSpace c then
          let r3 := r2.dropWhile jsIsSpace
          let v := r3.takeWhile isWordChar
          if v = ([] : List Char) then none
          else
            match List.drop v.length r3 with
            | c2 :: _ =>
              if jsIsSpace c2 then
                let r5 := (List.drop v.length r3).dropWhile jsIsSpace
                if hasPre (chars ("in")) r5 then
                  match List.drop 2 r5 with
                  | c3 :: _ =>
                    if jsIsSpace c3 then
                      let r6 := (List.drop 2 r5).dropWhile jsIsSpace
                      let coll := r6.takeWhile (fun d => isWordChar d || d = '.')
                      if coll ≠ ([] : List Char) && List.drop coll.length r6 = ([] : List Char)
                      then some (v, coll) else none
                    else none
                  | [] => none
                else none
              else none
            | [] => none
        else none
      | [] => none
  | _ => none

/-- Match of `/^:if\s+(.+)$/`, returning the raw condition capture. -/
def ifMatch (l : List Char) : Option (List Char) :=
  if hasPre (chars (":if")) l then wsCapTail (List.drop 3 l) else none

/-- Zero-or-more trailing `auth` literals followed by the end of input
(`(auth)*$`); `some b` reports whether at least one occurred. -/
def authRuns : List Char → Option Bool
  | [] => some false
  | 'a' :: 'u' :: 't' :: 'h' :: rest => (authRuns rest).map (fun _ => true)
  | _ => none

/-- Tail of the fetch regex after the url capture:
`["`]?[ ]+(GET|POST|PUT|DELETE)\s?(auth)*$`. -/
def fetchTail (l : List Char) : Option (List Char × Bool) :=
  let l1 := match l with
    | c :: rest => if c = '"' || c = '`' then rest else l
    | [] => l
  match l1 with
  | ' ' :: _ =>
    let l2 := l1.dropWhile (fun c => c = ' ')
    let m : Option (List Char × List Char) :=
      if hasPre (chars ("GET")) l2 then some (chars ("GET"), List.drop 3 l2)
      else if hasPre (chars ("POST")) l2 then some (chars ("POST"), List.drop 4 l2)
      else if hasPre (chars ("PUT")) l2 then some (chars ("PUT"), List.drop 3 l2)
      else if hasPre (chars ("DELETE")) l2 then some (chars ("DELETE"), List.drop 6 l2)
      else none
    match m with
    | none => none
    | some (meth, r) =>
      match r with
      | c :: rest =>
        if jsIsSpace c then
          match authRuns rest with
          | some b => some (meth, b)
          | none =>
            match authRuns r with
            | some b => some (meth, b)
            | none => none
        else (authRuns r).map (fun b => (meth, b))
      | [] => some (meth, false)
  | _ => none

/-- Greedy backtracking search for the `([^"`]+)` url capture: try the
longest quote-free non-empty prefix whose remainder matches the regex tail,
then shorter ones. -/
def urlSearch (l : List Char) : Nat → Option (List Char × List Char × Bool)
  | 0 => none
  | k + 1 =>
    match fetchTail (List.drop (k + 1) l) with
    | some (meth, b) => some (List.take (k + 1) l, meth, b)
    | none => urlSearch l k

/-- Match of the fetch directive regex
`/^:fetch\s+(\w+)\s*\(\s*(\{[^}]*\}\[*\]*)\s*\)\s+from\s+["`]?([^"`]+)["`]?[ ]+(GET|POST|PUT|DELETE)\s?(auth)*$/`,
returning (variable, initVariable, url, method, auth-present). -/
def fetchMatch (l : List Char) :
    Option (List Char × List Char × List Char × List Char × Bool) :=
  if hasPre (chars (":fetch")) l then
    match List.drop 6 l with
    | c :: _ =>
      if !(jsIsSpace c) then none else
      let r1 := (List.drop 6 l).dropWhile jsIsSpace
      let v := r1.takeWhile isWordChar
      if v = ([] : List Char) then none else
      match (List.drop v.length r1).dropWhile jsIsSpace with
      | '(' :: r3 =>
        match r3.dropWhile jsIsSpace with
        | '\x7b' :: r5 =>
          let inner := r5.takeWhile (fun d => !(d = '\x7d'))
          match List.drop inner.length r5 with
          | '\x7d' :: r6 =>
            let opens := r6.takeWhile (fun d => d = '[')
            let r7 := List.drop opens.length r6
            let closes := r7.takeWhile (fun d => d = ']')
            let r8 := List.drop closes.length r7
            let initVar := '\x7b' :: inner ++ '\x7d' :: (opens ++ closes)
            match r8.dropWhile jsIsSpace with
            | ')' :: r10 =>
              match r10 with
              | c2 :: _ =>
                if !(jsIsSpace c2) then none else
                let r11 := r10.dropWhile jsIsSpace
                if hasPre (chars ("from")) r11 then
                  match List.drop 4 r11 with
                  | c3 :: _ =>
                    if !(jsIsSpace c3) then none else
                    let r12 := (List.drop 4 r11).dropWhile jsIsSpace
                    let r13 := match r12 with
                      | q :: rq => if q = '"' || q = '`' then rq else r12
                      | [] => r12
                    let k0 := (r13.takeWhile (fun d => !(d = '"' || d = '`'))).length
                    match urlSearch r13 k0 with
                    | some (url, meth, b) => some (v, initVar, url, meth, b)
                    | none => none
                  | [] => none
                else none
              | [] => none
            | _ => none
          | _ => none
        | _ => none
      | _ => none
    | [] => none
  else none

/-- Classifier `parseDirective`: `:for`/`:forEach`, `:if` and `:fetch`
directives on the trimmed line. -/
def parseDirective (line : List Char) (ctx : Ctx) : Option Ast × Ctx :=
  let trimmedLine := jsTrim line
  match forMatch trimmedLine with
  | some (v, coll) => (some (.forN v coll []), ctx)
  | none =>
    match ifMatch trimmedLine with
    | some condition =>
      let cleanCondition :=
        match exprFirstMatch condition with
        | some inner => inner
        | none => condition
      (some (.ifN cleanCondition []), ctx)
    | none =>
      match fetchMatch trimmedLine with
      | some (v, initVar, url, meth, auth) =>
        let urlBackticked := '`' :: (jsTrim url ++ ['`'])
        let headers : List (List Char × List Char) :=
          if auth then
            [(chars ("Authorization"),
              chars ("Bearer $\x7blocalStorage.getItem(\x27token\x27)\x7d"))]
          else []
        let urlField :=
          if url ≠ ([] : List Char) then
            match exprFirstMatch v with
            | some inner => inner
            | none => jsTrim url
          else urlBackticked
        (some (.fetchN urlField (jsTrim (jsToUpper meth)) headers none
                (some (jsTrim v)) (some initVar)), ctx)
      | none => (none, ctx)

/-- Match of the component invocation regex `/^:(\w+)(?:\s+(.+))?$/`. -/
def componentMatch (l : List Char) : Option (List Char × Option (List Char)) :=
  match l with
  | ':' :: r1 =>
    let name := r1.takeWhile isWordChar
    if name = ([] : List Char) then none
    else
      match List.drop name.length r1 with
      | [] => some (name, none)
      | rest =>
        match wsCapTail rest with
        | some content => some (name, some content)
        | none => none
  | _ => none

/-- The prop-string splitter loop of `parseComponent`: split on spaces that
are outside double quotes and outside braces; an unescaped `"` toggles the
quote state, braces track a depth counter. -/
def splitGo : List Char → Option Char → List Char → Int → Bool → List (List Char)
  | [], _, cur, _, _ => if jsTrim cur ≠ ([] : List Char) then [jsTrim cur] else []
  | c :: rest, prev, cur, depth, inQ =>
    if c = '"' && prev ≠ some '\\' then
      splitGo rest (some c) (cur ++ [c]) depth (!inQ)
    else if !inQ then
      if c = '\x7b' then splitGo rest (some c) (cur ++ [c]) (depth + 1) inQ
      else if c = '\x7d' then splitGo rest (some c) (cur ++ [c]) (depth - 1) inQ
      else if c = ' ' && depth = 0 then
        if jsTrim cur ≠ ([] : List Char) then jsTrim cur :: splitGo rest (some c) [] depth inQ
        else splitGo rest (some c) [] depth inQ
      else splitGo rest (some c) (cur ++ [c]) depth inQ
    else splitGo rest (some c) (cur ++ [c]) depth inQ

/-- Exponent tail of a JavaScript decimal literal. -/
def expPart : List Char → Bool
  | [] => true
  | e :: rest =>
    if e = 'e' || e = 'E' then
      let rest2 := match rest with
        | s :: r => if s = '+' || s = '-' then r else rest
        | [] => rest
      rest2 ≠ ([] : List Char) && rest2.all isDigit
    else false

/-- JavaScript decimal number body (after an optional sign). -/
def jsDecimal (l : List Char) : Bool :=
  match l with
  | '.' :: rest =>
    let ds := rest.takeWhile isDigit
    ds ≠ ([] : List Char) && expPart (List.drop ds.length rest)
  | _ =>
    let ds := l.takeWhile isDigit
    ds ≠ ([] : List Char) &&
      (match List.drop ds.length l with
       | '.' :: r2 => expPart (List.drop ((r2.takeWhile isDigit).length) r2)
       | r2 => expPart r2)

/-- Model of `!isNaN(Number(v))` on a trimmed non-empty token. -/
def jsIsNumericStr (l : List Char) : Bool :=
  let p := match l with
    | c :: rest => if c = '+' || c = '-' then (rest, true) else (l, false)
    | [] => (l, false)
  match p with
  | (m, signed) =>
    (m = chars ("Infinity")) ||
    jsDecimal m ||
    (!signed &&
      (match m with
       | '0' :: x :: ds =>
         ((x = 'x' || x = 'X') && ds ≠ ([] : List Char) && ds.all isHexDigit) ||
         ((x = 'o' || x = 'O') && ds ≠ ([] : List Char) && ds.all (fun c => '0' ≤ c && c ≤ '7')) ||
         ((x = 'b' || x = 'B') && ds ≠ ([] : List Char) && ds.all (fun c => c = '0' || c = '1'))
       | _ => false))

/-- Whether an accepted numeric token denotes the value zero (model note:
underflow of extreme negative exponents to zero is not modelled). -/
def jsNumZero (l : List Char) : Bool :=
  let m := match l with
    | c :: rest => if c = '+' || c = '-' then rest else l
    | [] => l
  if m = chars ("Infinity") then false
  else
    match m with
    | '0' :: x :: ds =>
      if x = 'x' || x = 'X' || x = 'o' || x = 'O' || x = 'b' || x = 'B' then
        ds.all (fun c => c = '0')
      else (m.takeWhile (fun c => isDigit c || c = '.')).all (fun c => c = '0' || c = '.')
    | _ => (m.takeWhile (fun c => isDigit c || c = '.')).all (fun c => c = '0' || c = '.')

/-- JavaScript-object property assignment on an insertion-ordered map:
overwrite in place when the key exists, append otherwise. -/
def setProp (ps : List (List Char × PropVal)) (k : List Char) (v : PropVal) :
    List (List Char × PropVal) :=
  match ps with
  | [] => [(k, v)]
  | (k0, v0) :: rest => if k0 = k then (k0, v) :: rest else (k0, v0) :: setProp rest k v

/-- Property lookup. -/
def getProp (ps : List (List Char × PropVal)) (k : List Char) : Option PropVal :=
  match ps with
  | [] => none
  | (k0, v0) :: rest => if k0 = k then some v0 else getProp rest k

/-- JavaScript truthiness of an optional property value. -/
def propTruthy : Option PropVal → Bool
  | none => false
  | some (.expr _) => true
  | some (.str s) => s ≠ ([] : List Char)
  | some (.bool b) => b
  | some (.num lex) => !(jsNumZero lex)

/-- The `.value` field access `(props.element as ExpressionNode).value`:
`undefined` (rendered as the string `undefined` in a template literal) for
non-Expression values. -/
def exprValueOf : PropVal → List Char
  | .expr v => v
  | _ => chars ("undefined")

/-- The `key=value` pair loop of `parseComponent`: splits each token at its
first `=`, records an `InvalidProperty` diagnostic for malformed tokens,
classifies the value (braced expression, quoted string, boolean, number,
raw string) and applies the `Route`/`element` rewrite after each step. -/
def parsePropPairs (cname : List Char) (line : List Char) (pairs : List (List Char))
    (ctx : Ctx) (props : List (List Char × PropVal)) :
    List (List Char × PropVal) × Ctx :=
  match pairs with
  | [] => (props, ctx)
  | prop :: rest =>
    let key := prop.takeWhile (fun c => !(c = '='))
    let value := jsTrim (if prop.contains '=' then List.drop (key.length + 1) prop else [])
    let propName := jsTrim key
    if propName = ([] : List Char) || value = ([] : List Char) then
      let charIndex := jsIndexOf line prop
      parsePropPairs cname line rest
        { ctx with diagnostics := ctx.diagnostics ++
            [{ line := ctx.currentLine + 1, severity := severityError,
               sLine := ctx.currentLine, sChar := charIndex,
               eLine := ctx.currentLine, eChar := charIndex + prop.length,
               code := some (chars ("InvalidProperty")) }] } props
    else
      let pv : PropVal :=
        if value.head? = some '\x7b' && value.getLast? = some '\x7d' then
          .expr (List.dropLast (List.drop 1 value))
        else if value.head? = some '"' && value.getLast? = some '"' then
          .str (List.dropLast (List.drop 1 value))
        else if value = chars ("true") || value = chars ("false") then
          .bool (value = chars ("true"))
        else if jsIsNumericStr value then .num value
        else .str value
      let props1 := setProp props propName pv
      let props2 :=
        if cname = chars ("Route") && propTruthy (getProp props1 (chars ("element"))) then
          setProp props1 (chars ("element"))
            (.expr ('<' :: exprValueOf ((getProp props1 (chars ("element"))).getD (.str []))
              ++ chars ("/>")))
        else props1
      parsePropPairs cname line rest ctx props2

/-- Classifier `parseComponent`: `:Name [props]` invocation lines. -/
def parseComponent (line : List Char) (ctx : Ctx) : Option Ast × Ctx :=
  match componentMatch (jsTrim line) with
  | some (name, some propsStr) =>
    let pairs := splitGo propsStr none [] 0 false
    let (props, ctx2) := parsePropPairs name line pairs ctx []
    (some (.component name props []), ctx2)
  | some (name, none) => (some (.component name [] []), ctx)
  | none => (none, ctx)

/-- Suffix match at one position for the trailing style attribute regex
`/\s+style="([^"]+)"$/`. -/
def styleAt (l : List Char) : Option (List Char) :=
  match l with
  | c :: _ =>
    if jsIsSpace c then
      let r := l.dropWhile jsIsSpace
      if hasPre (chars ("style=\"")) r then
        let r2 := List.drop 7 r
        let inner := r2.takeWhile (fun d => !(d = '"'))
        if inner ≠ ([] : List Char) then
          match List.drop inner.length r2 with
          | ['"'] => some inner
          | _ => none
        else none
      else none
    else none
  | [] => none

/-- Leftmost match of the trailing style attribute: match index and the
captured style text. -/
def findStyle : List Char → Nat → Option (Nat × List Char)
  | [], _ => none
  | l@(_ :: rest), i =>
    match styleAt l with
    | some inner => some (i, inner)
    | none => findStyle rest (i + 1)

/-- Match of `/^\*\*(.+?)\*\*$/` (with both anchors the decomposition is
unique, so laziness does not matter). -/
def boldMatch (l : List Char) : Option (List Char) :=
  if hasPre (chars ("**")) l then
    let mid := List.drop 2 l
    if mid.length ≥ 3 && hasPre (chars ("**")) (List.drop (mid.length - 2) mid) then
      let inner := List.take (mid.length - 2) mid
      if inner.contains '\n' then none else some inner
    else none
  else none

/-- Match of `/^\*(.+?)\*$/`. -/
def italicMatch (l : List Char) : Option (List Char) :=
  match l with
  | '*' :: rest =>
    if rest.length ≥ 2 && rest.getLast? = some '*' then
      let inner := rest.dropLast
      if inner.contains '\n' then none else some inner
    else none
  | _ => none

/-- Match of the link regex `/^\[([^\]]*)\]\(([^)]+)\)$/`. -/
def linkMatch (l : List Char) : Option (List Char × List Char) :=
  match l with
  | '[' :: r1 =>
    let text := r1.takeWhile (fun c => !(c = ']'))
    match List.drop text.length r1 with
    | ']' :: '(' :: r2 =>
      let url := r2.takeWhile (fun c => !(c = ')'))
      if url = ([] : List Char) then none
      else
        match List.drop url.length r2 with
        | [')'] => some (text, url)
        | _ => none
    | _ => none
  | _ => none

/-- Match of the image regex `/^!\[([^\]]*)\]\(([^)]+)\)$/`. -/
def imageMatch (l : List Char) : Option (List Char × List Char) :=
  match l with
  | '!' :: rest => linkMatch rest
  | _ => none

/-- Match of the header regex `/^(#+)\s+(.+)$/`: hash count and text. -/
def headerMatch (l : List Char) : Option (Nat × List Char) :=
  let hashes := l.takeWhile (fun c => c = '#')
  if hashes = ([] : List Char) then none
  else (wsCapTail (List.drop hashes.length l)).map (fun v => (hashes.length, v))

/-- Match of the list regex `/^-\s+(.+)$/`. -/
def listMatch (l : List Char) : Option (List Char) :=
  match l with
  | '-' :: rest => wsCapTail rest
  | _ => none

/-- Style attribute list for a markdown node. -/
def mdStyleAttrs (styleValue : Option (List Char)) : List (List Char × TextVal) :=
  match styleValue with
  | some s => [(chars ("style"), .lit s)]
  | none => []

/-- Classifier `parseMarkdown`: trailing style extraction, then bold,
italic, link, image, header, list item (with open-list sibling handling via
the stack top), and the paragraph fallback. -/
def parseMarkdown (line : List Char) (ctx : Ctx) : Option Ast × Ctx :=
  let t0 := jsTrim line
  let (trimmedLine, styleValue) :=
    match findStyle t0 0 with
    | some (idx, inner) => (jsTrim (List.take idx t0), some inner)
    | none => (t0, (none : Option (List Char)))
  match boldMatch trimmedLine with
  | some text =>
    (some (.markdown (chars ("strong")) none (mdStyleAttrs styleValue)
      [.text (parseExpression text)]), ctx)
  | none =>
  match italicMatch trimmedLine with
  | some text =>
    (some (.markdown (chars ("em")) none (mdStyleAttrs styleValue)
      [.text (parseExpression text)]), ctx)
  | none =>
  match linkMatch trimmedLine with
  | some (text, url) =>
    (some (.markdown (chars ("a")) none
      ((chars ("href"), parseExpression url) :: mdStyleAttrs styleValue)
      [.text (parseExpression text)]), ctx)
  | none =>
  match imageMatch trimmedLine with
  | some (alt, src) =>
    (some (.markdown (chars ("img")) none
      ((chars ("src"), parseExpression src) :: (chars ("alt"), .lit alt)
        :: mdStyleAttrs styleValue) []), ctx)
  | none =>
  match headerMatch trimmedLine with
  | some (hlen, value) =>
    (some (.markdown (chars ("h") ++ (Nat.repr hlen).toList)
      (some (parseExpression value)) (mdStyleAttrs styleValue) []), ctx)
  | none =>
  match listMatch trimmedLine with
  | some value =>
    let liNode : Ast :=
      .markdown (chars ("li")) (some (parseExpression value)) (mdStyleAttrs styleValue) []
    let parentIsUl :=
      match ctx.stack with
      | f :: _ =>
        match f.node with
        | .markdown tag _ _ _ => tag == chars ("ul")
        | _ => false
      | [] => false
    if parentIsUl then (some liNode, ctx)
    else (some (.markdown (chars ("ul")) none [] [liNode]), ctx)
  | none =>
    if trimmedLine ≠ ([] : List Char) then
      (some (.markdown (chars ("p")) (some (parseExpression trimmedLine))
        (mdStyleAttrs styleValue) []), ctx)
    else (none, ctx)

/-- Match of the import-hoisting regex
`/^import\s+(?:\*\s+as\s+\w+|\w+(?:\s*,\s*\{[^}]+\})?|\{[^}]+\})\s+from\s+['"][^'"]+['"];$/`. -/
def importMatch (l : List Char) : Bool :=
  if hasPre (chars ("import")) l then
    match List.drop 6 l with
    | c :: _ =>
      if jsIsSpace c then
        let r := (List.drop 6 l).dropWhile jsIsSpace
        let afterSpec : Option (List Char) :=
          match r with
          | '*' :: r2 =>
            (match r2 with
             | c2 :: _ =>
               if jsIsSpace c2 then
                 let r3 := r2.dropWhile jsIsSpace
                 if hasPre (chars ("as")) r3 then
                   match List.drop 2 r3 with
                   | c3 :: _ =>
                     if jsIsSpace c3 then
                       let r4 := (List.drop 2 r3).dropWhile jsIsSpace
                       let w := r4.takeWhile isWordChar
                       if w = ([] : List Char) then none else some (List.drop w.length r4)
                     else none
                   | [] => none
                 else none
               else none
             | [] => none)
          | '\x7b' :: r2 =>
            let inner := r2.takeWhile (fun d => !(d = '\x7d'))
            if inner = ([] : List Char) then none
            else
              (match List.drop inner.length r2 with
               | '\x7d' :: r3 => some r3
               | _ => none)
          | _ =>
            let w := r.takeWhile isWordChar
            if w = ([] : List Char) then none
            else
              let r2 := List.drop w.length r
              let withGroup : Option (List Char) :=
                match r2.dropWhile jsIsSpace with
                | ',' :: r4 =>
                  (match r4.dropWhile jsIsSpace with
                   | '\x7b' :: r6 =>
                     let inner := r6.takeWhile (fun d => !(d = '\x7d'))
                     if inner = ([] : List Char) then none
                     else
                       (match List.drop inner.length r6 with
                        | '\x7d' :: r7 => some r7
                        | _ => none)
                   | _ => none)
                | _ => none
              match withGroup with
              | some r3 => some r3
              | none => some r2
        match afterSpec with
        | none => false
        | some r2 =>
          match r2 with
          | c2 :: _ =>
            if jsIsSpace c2 then
              let r3 := r2.dropWhile jsIsSpace
              if hasPre (chars ("from")) r3 then
                match List.drop 4 r3 with
                | c3 :: _ =>
                  if jsIsSpace c3 then
                    let r4 := (List.drop 4 r3).dropWhile jsIsSpace
                    match r4 with
                    | q :: r5 =>
                      if q = '\x27' || q = '"' then
                        let u := r5.takeWhile (fun d => !(d = '\x27' || d = '"'))
                        if u = ([] : List Char) then false
                        else
                          match List.drop u.length r5 with
                          | [q2, ';'] => q2 = '\x27' || q2 = '"'
                          | _ => false
                      else false
                    | [] => false
                  else false
                | [] => false
              else false
            else false
          | [] => false
      else false
    | [] => false
  else false

/-- Container node kinds: pushed on the indentation stack after attachment. -/
def isContainer : Ast → Bool
  | .component _ _ _ => true
  | .jsN _ => true
  | .forN _ _ _ => true
  | .ifN _ _ => true
  | .markdown tag _ _ _ => tag == chars ("ul")
  | _ => false

/-- Append a child to a container node's children
(`(parent.children = parent.children || []).push(node)`); non-container
parents never occur on the stack and are returned unchanged. -/
def addChild (parent child : Ast) : Ast :=
  match parent with
  | .component n p cs => .component n p (cs ++ [child])
  | .forN v c cs => .forN v c (cs ++ [child])
  | .ifN c cs => .ifN c (cs ++ [child])
  | .markdown t v a cs => .markdown t v a (cs ++ [child])
  | other => other

/-- The `handleIndentation` pop loop: close every frame whose recorded
indent is `≥` the new line's indent, folding each closed frame's node into
its parent frame (or the root AST) per the aliasing translation described
on `Frame`.  Call with `fuel = st.length`. -/
def popFrames (fuel : Nat) (indent : Nat) (st : List Frame) (ast : List Ast) :
    List Frame × List Ast :=
  match fuel with
  | 0 => (st, ast)
  | f + 1 =>
    match st with
    | [] => (st, ast)
    | top :: rest =>
      if indent ≤ top.indent then
        match rest with
        | [] => popFrames f indent [] (ast ++ [top.node])
        | g :: r2 => popFrames f indent ({ g with node := addChild g.node top.node } :: r2) ast
      else (st, ast)

/-- `handleIndentation` on the context. -/
def handleIndentation (indent : Nat) (ctx : Ctx) : Ctx :=
  let p := popFrames ctx.stack.length indent ctx.stack ctx.ast
  { ctx with stack := p.1, ast := p.2 }

/-- The first-match-wins classifier chain of `parseLine` (markdown only
past line 0). -/
def classify (line : List Char) (ctx : Ctx) : Option Ast × Ctx :=
  match parseComment line ctx with
  | (some n, c1) => (some n, c1)
  | (none, c1) =>
    match parseData line c1 with
    | (some n, c2) => (some n, c2)
    | (none, c2) =>
      match parseFunction line c2 with
      | (some n, c3) => (some n, c3)
      | (none, c3) =>
        match parseDirective line c3 with
        | (some n, c4) => (some n, c4)
        | (none, c4) =>
          match parseComponent line c4 with
          | (some n, c5) => (some n, c5)
          | (none, c5) =>
            if c5.currentLine > 0 then parseMarkdown line c5 else (none, c5)

/-- Attach a classified node: containers become a new stack frame (their
root/parent attachment is deferred to their pop), others append to the
parent frame's children or to the root AST. -/
def attachNode (node : Ast) (indent : Nat) (ctx : Ctx) : Ctx :=
  if isContainer node then { ctx with stack := ⟨node, indent⟩ :: ctx.stack }
  else
    match ctx.stack with
    | f :: rest => { ctx with stack := { f with node := addChild f.node node } :: rest }
    | [] => { ctx with ast := ctx.ast ++ [node] }

/-- The `const node = ...; if (node) ...` tail of `parseLine`: classify the
line and attach the produced node, if any. -/
def classifyAttach (line : List Char) (indent : Nat) (ctx1 : Ctx) : Ctx :=
  match classify line ctx1 with
  | (some node, ctx2) => attachNode node indent ctx2
  | (none, ctx2) => ctx2

/-- Per-line parse step `parseLine`: indentation handling, inline-script
body capture (with import hoisting), classification and attachment. -/
def parseLine (line : List Char) (ctx : Ctx) : Ctx :=
  let indent := indentOf line
  let ctx1 := handleIndentation indent ctx
  match ctx1.stack with
  | top :: rest =>
    match top.node with
    | .jsN body =>
      let t := jsTrim line
      if hasPre (chars ("import ")) t && importMatch t then
        { ctx1 with imports := ctx1.imports ++ [t] }
      else { ctx1 with stack := { top with node := .jsN (body ++ [t]) } :: rest }
    | _ => classifyAttach line indent ctx1
  | [] => classifyAttach line indent ctx1

/-- Match of the signature regex `/^(\w+)\((.*)\)$/`: name and the text up
to the final closing parenthesis. -/
def sigMatch (l : List Char) : Option (List Char × List Char) :=
  let name := l.takeWhile isWordChar
  if name = ([] : List Char) then none
  else
    match List.drop name.length l with
    | '(' :: rest =>
      match rest.getLast? with
      | some ')' =>
        let mid := rest.dropLast
        if mid.contains '\n' then none else some (name, mid)
      | _ => none
    | _ => none

/-- Prepend a character to the first bucket of a split result. -/
def consHead (c : Char) : List (List Char) → List (List Char)
  | [] => [[c]]
  | h :: t => (c :: h) :: t

/-- The parameter-list split `/,(?![^(]*\))/`: split at a comma exactly when
no `)` is reachable from it through non-`(` characters. -/
def signatureSplit : List Char → List (List Char)
  | [] => [[]]
  | c :: rest =>
    if c = ',' then
      if (rest.takeWhile (fun d => !(d = '('))).contains ')' then
        consHead ',' (signatureSplit rest)
      else [] :: signatureSplit rest
    else consHead c (signatureSplit rest)

/-- Match of the parameter regex `/^(\w+)(\?)?:\s*(.+)$/`, returning the
name, the optional flag and the trimmed type. -/
def specMatch (l : List Char) : Option (List Char × Bool × List Char) :=
  let pname := l.takeWhile isWordChar
  if pname = ([] : List Char) then none
  else
    let rec2 : Bool × List Char :=
      match List.drop pname.length l with
      | '?' :: r => (true, r)
      | r => (false, r)
    match rec2.2 with
    | ':' :: r3 =>
      let content := r3.dropWhile jsIsSpace
      if content ≠ ([] : List Char) then
        if content.contains '\n' then none else some (pname, rec2.1, jsTrim content)
      else
        match r3.getLast? with
        | some d => if !(d = '\n') then some (pname, rec2.1, jsTrim [d]) else none
        | none => none
    | _ => none

/-- The per-parameter loop of the signature parser: well-formed specs are
collected in order, malformed ones produce `InvalidPropDefinition` and are
dropped. -/
def parseSpecs (line : List Char) (specs : List (List Char)) (ctx : Ctx)
    (acc : List ParamSpec) : List ParamSpec × Ctx :=
  match specs with
  | [] => (acc, ctx)
  | spec :: rest =>
    match specMatch spec with
    | some (pname, opt, ty) =>
      parseSpecs line rest ctx (acc ++ [{ name := pname, type := ty, optional := opt }])
    | none =>
      let charIndex := jsIndexOf line spec
      parseSpecs line rest
        { ctx with diagnostics := ctx.diagnostics ++
            [{ line := ctx.currentLine + 1, severity := severityError,
               sLine := ctx.currentLine, sChar := charIndex,
               eLine := ctx.currentLine, eChar := charIndex + spec.length,
               code := some (chars ("InvalidPropDefinition")) }] } acc

/-- The first-line (component signature) branch of `parseLunor`'s loop. -/
def parseSignature (line : List Char) (ctx : Ctx) : Ctx :=
  let firstLine := jsTrim line
  match sigMatch firstLine with
  | none =>
    { ctx with
      diagnostics := ctx.diagnostics ++
        [{ line := ctx.currentLine + 1, severity := severityError,
           sLine := ctx.currentLine, sChar := 0,
           eLine := ctx.currentLine, eChar := (firstLine.length : Int),
           code := some (chars ("InvalidComponentSignature")) }],
      parentComponent := some { name := firstLine, props := none } }
  | some (tag, paramsRaw) =>
    let rawList := ((signatureSplit paramsRaw).map jsTrim).filter
      (fun s => s ≠ ([] : List Char))
    let p := parseSpecs line rawList ctx []
    { p.2 with parentComponent := some { name := tag, props := some p.1 } }

/-- One iteration of `parseLunor`'s main loop: blank lines are skipped,
line 0 parses the signature, later lines go through `parseLine`. -/
def processLine (ctx : Ctx) (line : List Char) : Ctx :=
  if jsTrim line = ([] : List Char) then ctx
  else if ctx.currentLine = 0 then parseSignature line ctx
  else parseLine line ctx

/-- The main loop over the line list, bumping `currentLine` per iteration. -/
def processLines : List (List Char) → Ctx → Ctx
  | [], ctx => ctx
  | l :: ls, ctx =>
    let ctx1 := processLine ctx l
    processLines ls { ctx1 with currentLine := ctx1.currentLine + 1 }

/-- Close every remaining open frame at end of input (final step of the
aliasing translation; indent 0 pops everything). -/
def closeAll (ctx : Ctx) : Ctx :=
  let p := popFrames ctx.stack.length 0 ctx.stack ctx.ast
  { ctx with stack := p.1, ast := p.2 }

/-- The single `EmptyFile` diagnostic. -/
def emptyFileDiag : Diag :=
  { line := 1, severity := severityError, sLine := 0, sChar := 0,
    eLine := 0, eChar := 0, code := some (chars ("EmptyFile")) }

/-- The parser entry point `parseLunor`. -/
def parseLunor (text : List Char) : ParseResult :=
  let lines := jsLines text
  if lines.isEmpty || jsTrim (lines.headD []) = ([] : List Char) then
    { ast := [], diagnostics := [emptyFileDiag], component := none, imports := [] }
  else
    let ctx := closeAll (processLines lines initCtx)
    { ast := ctx.ast, diagnostics := ctx.diagnostics,
      component := ctx.parentComponent, imports := ctx.imports }

/-! The fetch code generator (`generateFetchNode`). -/

/-- `JSON.stringify` on a flat string-to-string object (none of the header
strings this repository produces needs JSON escaping, so none is applied). -/
def stringifyFlat (fields : List (List Char × List Char)) : List Char :=
  match fields with
  | [] => chars ("\x7b\x7d")
  | _ =>
    '\x7b' ::
      (List.intercalate (chars (","))
        (fields.map (fun p => '"' :: p.1 ++ '"' :: ':' :: '"' :: p.2 ++ ['"']))) ++ ['\x7d']

/-- `s.charAt(0).toUpperCase() + s.slice(1)`. -/
def capFirst (l : List Char) : List Char :=
  match l with
  | c :: rest => Char.toUpper c :: rest
  | [] => []

/-- The fetch code generator `generateFetchNode`: appends the state-binding
declaration and the one-time-effect block to `declarations`, registers the
`useEffect` and `useState` imports, and returns the empty markup string.
An empty url throws in the source; the embedding returns `none` there.
Template-literal text (including its source indentation bytes) is
reproduced verbatim. -/
def generateFetchNode (node : Ast) (declarations imports : List (List Char)) :
    Option (List (List Char) × List (List Char) × List Char) :=
  match node with
  | .fetchN url method headers body var initVar =>
    if url = ([] : List Char) then none
    else
      let nodeURL := '`' :: url ++ ['`']
      let headersStr := replaceFirst (stringifyFlat headers)
        (chars ("\"Bearer $\x7blocalStorage.getItem(\x27token\x27)\x7d\""))
        (chars ("`Bearer $\x7blocalStorage.getItem(\"token\")\x7d`"))
      let fetchCode :=
        chars ("fetch(") ++ nodeURL ++ chars (", \x7b\n  \t\tmethod: \x27") ++
        (if method = ([] : List Char) then chars ("GET") else method) ++
        chars ("\x27,\n  \t\theaders: ") ++ headersStr ++
        chars (",\n  \t\tbody: ") ++
        (match body with
         | some b => '"' :: b ++ ['"']
         | none => chars ("null")) ++
        chars ("\n\t\t\x7d)")
      let imports1 :=
        if imports.contains (chars ("useEffect")) then imports
        else imports ++ [chars ("useEffect")]
      let imports2 :=
        if imports1.contains (chars ("useState")) then imports1
        else imports1 ++ [chars ("useState")]
      let variableName := var.getD (chars ("data"))
      let decl1 :=
        chars ("const [") ++ variableName ++ chars (", set") ++ capFirst variableName ++
        chars ("] = useState<") ++ initVar.getD (chars ("undefined")) ++ chars (">();")
      let part1 :=
        match var with
        | some v =>
          (match v with
           | c :: _ => [Char.toUpper c]
           | [] => [])
        | none => chars ("undefined")
      let part2 :=
        match var with
        | some v => List.drop 1 v
        | none => chars ("undefined")
      let decl2 :=
        chars ("useEffect(() => \x7b\n\t\t") ++ fetchCode ++
        chars ("\n\t\t.then(response => response.json())\n\t\t.then(data => set") ++
        part1 ++ part2 ++
        chars ("(data))\n\t\t.catch(error => console.error(\x27Fetch error:\x27, error));\n\t\x7d, []);")
      some (declarations ++ [decl1, decl2], imports2, [])
  | _ => none

/-! The document-symbol projection (`server/src/documentSymbols.ts`). -/

/-- Document symbols: name, LSP symbol-kind number, children.  Ranges are
derived from the unmodelled positional metadata and are omitted. -/
structure DocSym where
  name : List Char
  kind : Nat
  children : List DocSym

mutual

/-- The `visit` traversal: `For`, `If`, `State` and `Data` nodes produce one
symbol each and are not descended into; every other node contributes its
children's symbols. -/
def visitSyms : Ast → List DocSym
  | .forN v c _ =>
    [{ name := chars ("for ") ++ v ++ chars (" in ") ++ c, kind := 12, children := [] }]
  | .ifN cond _ =>
    [{ name := chars ("if ") ++ cond, kind := 12, children := [] }]
  | .stateN n _ => [{ name := chars ("State ") ++ n, kind := 13, children := [] }]
  | .dataN n _ => [{ name := chars ("Data ") ++ n, kind := 13, children := [] }]
  | .markdown _ _ _ cs => visitSymsList cs
  | .component _ _ cs => visitSymsList cs
  | .comment _ => []
  | .text _ => []
  | .fetchN _ _ _ _ _ _ => []
  | .jsN _ => []

/-- Symbol contributions of a child list, in order. -/
def visitSymsList : List Ast → List DocSym
  | [] => []
  | a :: rest => visitSyms a ++ visitSymsList rest

end

/-- `generateDocumentSymbols(text, uri)`: empty for non-`.lnr` uris and for
documents without a component signature; otherwise one root symbol named
after the component (LSP kind `Class` = 5) whose children are the visit
traversal of the root AST sequence. -/
def generateDocumentSymbols (text : List Char) (uri : List Char) : List DocSym :=
  if hasPre (chars (".lnr")).reverse (jsToLower uri).reverse then
    let lines := splitNl text
    if lines.isEmpty then []
    else
      let r := parseLunor text
      match r.component with
      | none => []
      | some comp => [{ name := comp.name, kind := 5, children := visitSymsList r.ast }]
  else []

/-! Shared helper lemmas. -/

theorem word_not_space {c : Char} (h : isWordChar c = true) : jsIsSpace c = false := by
  cases hc : jsIsSpace c
  · rfl
  · exfalso
    have hc6 : c = ' ' ∨ c = '\t' ∨ c = '\n' ∨ c = '\r' ∨ c = '\x0b' ∨ c = '\x0c' := by
      simpa [jsIsSpace, or_assoc] using hc
    rcases hc6 with rfl | rfl | rfl | rfl | rfl | rfl <;> exact absurd h (by decide)

theorem wordChar_ne {c d : Char} (h : isWordChar c = true) (hd : isWordChar d = false) :
    c ≠ d := fun e => by subst e; rw [h] at hd; cases hd

theorem hasPre_append_self (p r : List Char) : hasPre p (p ++ r) = true := by
  induction p with
  | nil => rfl
  | cons c cs ih => simp [hasPre, ih]

theorem takeWhile_append_all {p : Char → Bool} {l1 : List Char} (l2 : List Char)
    (h : ∀ a ∈ l1, p a = true) :
    (l1 ++ l2).takeWhile p = l1 ++ l2.takeWhile p := by
  induction l1 with
  | nil => rfl
  | cons c cs ih =>
    have hc := h c (by simp)
    simp [List.takeWhile_cons, hc]
    exact ih (fun a ha => h a (by simp [ha]))

theorem dropWhile_append_all {p : Char → Bool} {l1 : List Char} (l2 : List Char)
    (h : ∀ a ∈ l1, p a = true) :
    (l1 ++ l2).dropWhile p = l2.dropWhile p := by
  induction l1 with
  | nil => rfl
  | cons c cs ih =>
    have hc := h c (by simp)
    simp [List.dropWhile_cons, hc]
    exact ih (fun a ha => h a (by simp [ha]))

theorem takeWhile_append_stop {p : Char → Bool} {l1 l2 : List Char}
    (h : ∀ a ∈ l1, p a = true) {c : Char} (hc : p c = false) :
    (l1 ++ c :: l2).takeWhile p = l1 := by
  rw [takeWhile_append_all _ h, List.takeWhile_cons, hc]
  simp

theorem dropWhile_append_stop {p : Char → Bool} {l1 l2 : List Char}
    (h : ∀ a ∈ l1, p a = true) {c : Char} (hc : p c = false) :
    (l1 ++ c :: l2).dropWhile p = c :: l2 := by
  rw [dropWhile_append_all _ h, List.dropWhile_cons, hc]
  simp

theorem dropWhile_cons_neg {p : Char → Bool} {c : Char} {l : List Char} (hc : p c = false) :
    (c :: l).dropWhile p = c :: l := by
  rw [List.dropWhile_cons, hc]; simp

theorem takeWhile_all_self {p : Char → Bool} {l : List Char} (h : ∀ a ∈ l, p a = true) :
    l.takeWhile p = l := List.takeWhile_eq_self_iff.mpr h

/-- Trim is the identity on a list whose first and last characters are not
whitespace. -/
theorem jsTrim_eq_self {l : List Char}
    (h1 : ∀ c, l.head? = some c → jsIsSpace c = false)
    (h2 : ∀ c, l.getLast? = some c → jsIsSpace c = false) :
    jsTrim l = l := by
  unfold jsTrim
  cases l with
  | nil => rfl
  | cons a as =>
    rw [dropWhile_cons_neg (h1 a rfl)]
    have : (a :: as).reverse.dropWhile jsIsSpace = (a :: as).reverse := by
      cases hr : (a :: as).reverse with
      | nil => rfl
      | cons b bs =>
        have hb : (a :: as).getLast? = some b := by
          rw [← List.head?_reverse]; rw [hr]; rfl
        exact dropWhile_cons_neg (h2 b hb)
    rw [this, List.reverse_reverse]

/-! Claim C1: the expression extractor. -/

theorem exprInnerFrom_closed {b : List Char} (c : List Char)
    (hb : '\x7d' ∉ b) (hn : '\n' ∉ b) :
    exprInnerFrom (b ++ '\x7d' :: c) = some b := by
  induction b with
  | nil => rfl
  | cons x xs ih =>
    have hx1 : x ≠ '\x7d' := fun e => hb (by simp [e])
    have hx2 : x ≠ '\n' := fun e => hn (by simp [e])
    simp only [List.cons_append, exprInnerFrom, if_neg hx1, if_neg hx2, List.append_eq]
    rw [ih (fun m => hb (by simp [m])) (fun m => hn (by simp [m]))]
    rfl

theorem exprFirstMatch_no_brace {t : List Char} (h : '\x7b' ∉ t) :
    exprFirstMatch t = none := by
  induction t with
  | nil => rfl
  | cons x xs ih =>
    have hx : x ≠ '\x7b' := fun e => h (by simp [e])
    simp only [exprFirstMatch, if_neg hx]
    exact ih (fun m => h (by simp [m]))

/-- Claim C1 (corrected), part refuting the original wording: the
interpolation regex `\{(.+?)\}` is unanchored, so a fragment that embeds a
brace span inside surrounding literal text is *not* returned unchanged —
`parseExpression "a {b} c"` is the Expression leaf `b`, not the literal. -/
theorem c1_counterexample :
    parseExpression (chars ("a \x7bb\x7d c")) = TextVal.expr (chars ("b")) ∧
    TextVal.expr (chars ("b")) ≠ TextVal.lit (chars ("a \x7bb\x7d c")) :=
  ⟨rfl, fun h => TextVal.noConfusion h⟩

/-- Claim C1 (amended): for every raw text fragment processed by
`parseExpression`, if the fragment contains a `{...}` interpolation span
anywhere (first span, shortest inner text), the result is an Expression
leaf holding that span's inner text — in particular a fragment that is
exactly one span yields its inner text — and a fragment containing no `{`
is returned unchanged as a literal string. -/
theorem c1_expression_extractor :
    (∀ a b c : List Char, '\x7b' ∉ a → b ≠ [] → '\x7d' ∉ b → '\n' ∉ b →
      parseExpression (a ++ '\x7b' :: (b ++ '\x7d' :: c)) = TextVal.expr b) ∧
    (∀ t : List Char, '\x7b' ∉ t → parseExpression t = TextVal.lit t) := by
  constructor
  · intro a b c ha hb hbr hbn
    induction a with
    | nil =>
      cases b with
      | nil => exact absurd rfl hb
      | cons b0 bs =>
        have hb0 : b0 ≠ '\n' := fun e => hbn (by simp [e])
        unfold parseExpression exprFirstMatch
        simp only [List.nil_append, List.cons_append, if_pos rfl]
        rw [exprInnerFrom_closed c (fun m => hbr (by simp [m])) (fun m => hbn (by simp [m]))]
        simp [hb0]
    | cons x xs ih =>
      have hx : x ≠ '\x7b' := fun e => ha (by simp [e])
      have ih2 := ih (fun m => ha (by simp [m]))
      unfold parseExpression exprFirstMatch
      simp only [List.cons_append, if_neg hx]
      unfold parseExpression at ih2
      cases hm : exprFirstMatch (xs ++ '\x7b' :: (b ++ '\x7d' :: c)) with
      | none => rw [hm] at ih2; exact absurd ih2 (by simp)
      | some v =>
        rw [hm] at ih2
        simp only at ih2
        cases ih2
        rfl
  · intro t ht
    unfold parseExpression
    rw [exprFirstMatch_no_brace ht]

/-- Witness for C1: the amended theorem applied at `"a {b} c"` (span inside
literal text) and at `"plain"` (no span). -/
theorem c1_expression_extractor_witness :
    parseExpression (chars ("a ") ++ '\x7b' :: (chars ("b") ++ '\x7d' :: chars (" c"))) =
      TextVal.expr (chars ("b")) ∧
    parseExpression (chars ("plain")) = TextVal.lit (chars ("plain")) :=
  ⟨c1_expression_extractor.1 (chars ("a ")) (chars ("b")) (chars (" c"))
      (by decide) (by decide) (by decide) (by decide),
   c1_expression_extractor.2 (chars ("plain")) (by decide)⟩

/-! Claim C2: the fetch directive and fetch code generation. -/

/-- Claim C2 (corrected), counterexample: the fetch regex requires the
parenthesised init annotation to be brace-shaped (`{...}` optionally
followed by brackets), so the claimed line `:fetch data(SomeType[]) from
"/api/x" GET` does not produce a Fetch node: `parseDirective` rejects it
and the classifier chain yields a Component named `fetch` instead. -/
theorem c2_counterexample :
    (parseDirective (chars (":fetch data(SomeType[]) from \"/api/x\" GET")) initCtx).1 = none ∧
    (classify (chars (":fetch data(SomeType[]) from \"/api/x\" GET")) initCtx).1 =
      some (Ast.component (chars ("fetch")) [] []) :=
  ⟨rfl, rfl⟩

/-- Claim C2 (amended): a fetch directive whose init annotation has the
brace shape the regex accepts — `:fetch data({id:number}[]) from "/api/x"
GET` — parses to a Fetch node with url `/api/x`, method `GET`, empty
headers and no body, and `generateFetchNode` on that node emits exactly a
state-binding declaration initialised from the init-type placeholder plus a
one-time-effect `useEffect` block issuing the GET request to `/api/x` with
empty headers and null body, registering the `useEffect` and `useState`
imports. -/
theorem c2_fetch_generation :
    classify (chars (":fetch data(\x7bid:number\x7d[]) from \"/api/x\" GET")) initCtx =
      (some (Ast.fetchN (chars ("/api/x")) (chars ("GET")) [] none
        (some (chars ("data"))) (some (chars ("\x7bid:number\x7d[]")))), initCtx) ∧
    generateFetchNode
        (Ast.fetchN (chars ("/api/x")) (chars ("GET")) [] none
          (some (chars ("data"))) (some (chars ("\x7bid:number\x7d[]")))) [] [] =
      some
        ([chars ("const [data, setData] = useState<\x7bid:number\x7d[]>();"),
          chars ("useEffect(() => \x7b\n\t\tfetch(`/api/x`, \x7b\n  \t\tmethod: \x27GET\x27,\n  \t\theaders: \x7b\x7d,\n  \t\tbody: null\n\t\t\x7d)\n\t\t.then(response => response.json())\n\t\t.then(data => setData(data))\n\t\t.catch(error => console.error(\x27Fetch error:\x27, error));\n\t\x7d, []);")],
         [chars ("useEffect"), chars ("useState")], []) :=
  ⟨rfl, rfl⟩

/-! Claim C9: determinism of parseLunor. -/

/-- Claim C9: `parseLunor` is deterministic — the embedding is a pure
function of the input text (the source allocates a fresh context per call,
reads no global mutable state and uses no randomness on the parse path), so
equal inputs give structurally identical ASTs, identical diagnostic
sequences, identical signatures and identical import lists. -/
theorem c9_determinism (t1 t2 : List Char) (h : t1 = t2) :
    (parseLunor t1).ast = (parseLunor t2).ast ∧
    (parseLunor t1).diagnostics = (parseLunor t2).diagnostics ∧
    (parseLunor t1).component = (parseLunor t2).component ∧
    (parseLunor t1).imports = (parseLunor t2).imports := by
  subst h; exact ⟨rfl, rfl, rfl, rfl⟩

/-- Witness for C9 at a concrete document. -/
theorem c9_determinism_witness :
    (parseLunor (chars ("MyComp()\n# Title"))).ast =
      (parseLunor (chars ("MyComp()\n# Title"))).ast ∧
    (parseLunor (chars ("MyComp()\n# Title"))).diagnostics =
      (parseLunor (chars ("MyComp()\n# Title"))).diagnostics ∧
    (parseLunor (chars ("MyComp()\n# Title"))).component =
      (parseLunor (chars ("MyComp()\n# Title"))).component ∧
    (parseLunor (chars ("MyComp()\n# Title"))).imports =
      (parseLunor (chars ("MyComp()\n# Title"))).imports :=
  c9_determinism _ _ rfl

/-! Claim C7: the EmptyFile short-circuit. -/

/-- Claim C7: for every input text whose first line (after newline split
and carriage-return stripping) is blank — which includes the empty text —
`parseLunor` returns an empty AST, a null component signature and exactly
one diagnostic, with code `EmptyFile`; no body lines are processed. -/
theorem c7_empty_file (text : List Char)
    (h : jsTrim ((jsLines text).headD []) = ([] : List Char)) :
    parseLunor text =
      { ast := [], diagnostics := [emptyFileDiag], component := none, imports := [] } := by
  unfold parseLunor
  cases hl : jsLines text with
  | nil => simp
  | cons a as =>
    have ha : jsTrim a = [] := by rw [hl] at h; simpa using h
    simp [ha]

/-- Witness for C7 at the empty text. -/
theorem c7_empty_file_witness :
    parseLunor (chars ("")) =
      { ast := [], diagnostics := [emptyFileDiag], component := none, imports := [] } :=
  c7_empty_file (chars ("")) (by decide)

/-! Claim C6: `:data`/`:state` declaration values. -/

theorem contains_eq_false_of_not_mem {c : Char} {l : List Char} (h : c ∉ l) :
    l.contains c = false := by
  cases hc : l.contains c
  · rfl
  · exact absurd (List.mem_of_elem_eq_true hc) h

theorem declMatch_build (kw name value : List Char)
    (hn : name ≠ []) (hw : name.all isWordChar = true)
    (hv : value ≠ []) (hnl : '\n' ∉ value) :
    declMatch kw (kw ++ ' ' :: (name ++ '=' :: value)) = some (name, value) := by
  have hword : ∀ a ∈ name, isWordChar a = true := List.all_eq_true.mp hw
  unfold declMatch
  rw [hasPre_append_self, List.drop_left]
  simp only [if_pos rfl, reduceIte]
  have hdw : (' ' :: (name ++ '=' :: value)).dropWhile jsIsSpace = name ++ '=' :: value := by
    rw [List.dropWhile_cons]
    simp only [show jsIsSpace ' ' = true from rfl, if_pos rfl]
    cases name with
    | nil => exact absurd rfl hn
    | cons n0 ns =>
      exact dropWhile_cons_neg (word_not_space (hword n0 (by simp)))
  rw [hdw]
  rw [takeWhile_append_stop hword (by decide : isWordChar '=' = false)]
  simp only [if_neg hn]
  rw [List.drop_left]
  simp [hv, contains_eq_false_of_not_mem hnl]
  exact ⟨rfl, hnl⟩

/-- Claim C6 (corrected), counterexample: `useParams().id` has the bare
call/member shape, yet a `:state` declaration using it is dropped with an
`InvalidStateValue` diagnostic — the bare-expression escape exists only in
the `:data` branch. -/
theorem c6_counterexample :
    fnShape (jsTrim (chars ("useParams().id"))) = true ∧
    parseData (chars (":state x=useParams().id")) initCtx =
      (none, { initCtx with diagnostics :=
        [{ line := 1, severity := severityError, sLine := 0, sChar := 9,
           eLine := 0, eChar := 23, code := some (chars ("InvalidStateValue")) }] }) :=
  ⟨rfl, rfl⟩

/-- Claim C6 (amended): for a well-formed declaration line, a `:data` value
matching the bare call/member shape becomes an Expression holding the
trimmed text verbatim; otherwise the `:data` value is parsed as a JSON
literal after single-quote normalization, a failure dropping the node with
an `InvalidDataValue` diagnostic; a `:state` value has no bare-expression
escape — it is always parsed as a JSON literal after normalization, a
failure dropping the node with an `InvalidStateValue` diagnostic. -/
theorem c6_declaration_values (name value : List Char) (ctx : Ctx)
    (hn : name ≠ []) (hw : name.all isWordChar = true)
    (hv : value ≠ []) (hnl : '\n' ∉ value) :
    (fnShape (jsTrim value) = true →
      parseData (chars (":data ") ++ (name ++ '=' :: value)) ctx =
        (some (.dataN name (.expr (jsTrim value))), ctx)) ∧
    (∀ j, fnShape (jsTrim value) = false →
      jsonParse (normalizeQuotes value) = some j →
      parseData (chars (":data ") ++ (name ++ '=' :: value)) ctx =
        (some (.dataN name (.json j)), ctx)) ∧
    (fnShape (jsTrim value) = false →
      jsonParse (normalizeQuotes value) = none →
      parseData (chars (":data ") ++ (name ++ '=' :: value)) ctx =
        (none, { ctx with diagnostics := ctx.diagnostics ++
          [{ line := ctx.currentLine + 1, severity := severityError,
             sLine := ctx.currentLine,
             sChar := jsIndexOf (chars (":data ") ++ (name ++ '=' :: value)) value,
             eLine := ctx.currentLine,
             eChar := jsIndexOf (chars (":data ") ++ (name ++ '=' :: value)) value
               + value.length,
             code := some (chars ("InvalidDataValue")) }] })) ∧
    (∀ j, jsonParse (normalizeQuotes value) = some j →
      parseData (chars (":state ") ++ (name ++ '=' :: value)) ctx =
        (some (.stateN name (.json j)), ctx)) ∧
    (jsonParse (normalizeQuotes value) = none →
      parseData (chars (":state ") ++ (name ++ '=' :: value)) ctx =
        (none, { ctx with diagnostics := ctx.diagnostics ++
          [{ line := ctx.currentLine + 1, severity := severityError,
             sLine := ctx.currentLine,
             sChar := jsIndexOf (chars (":state ") ++ (name ++ '=' :: value)) value,
             eLine := ctx.currentLine,
             eChar := jsIndexOf (chars (":state ") ++ (name ++ '=' :: value)) value
               + value.length,
             code := some (chars ("InvalidStateValue")) }] })) := by
  have hd : dataMatch (chars (":data ") ++ (name ++ '=' :: value)) = some (name, value) := by
    have e : chars (":data ") ++ (name ++ '=' :: value) =
        chars (":data") ++ ' ' :: (name ++ '=' :: value) := rfl
    rw [dataMatch, e]
    exact declMatch_build _ _ _ hn hw hv hnl
  have hs : stateMatch (chars (":state ") ++ (name ++ '=' :: value)) = some (name, value) := by
    have e : chars (":state ") ++ (name ++ '=' :: value) =
        chars (":state") ++ ' ' :: (name ++ '=' :: value) := rfl
    rw [stateMatch, e]
    exact declMatch_build _ _ _ hn hw hv hnl
  have hds : dataMatch (chars (":state ") ++ (name ++ '=' :: value)) = none := rfl
  refine ⟨?_, ?_, ?_, ?_, ?_⟩
  · intro hf
    unfold parseData
    rw [hd]
    simp [hf]
  · intro j hf hj
    unfold parseData
    rw [hd]
    simp [hf, hj]
  · intro hf hj
    unfold parseData
    rw [hd]
    simp [hf, hj]
  · intro j hj
    unfold parseData
    rw [hds, hs]
    simp [hj]
  · intro hj
    unfold parseData
    rw [hds, hs]
    simp [hj]

/-- Witness for C6: the amended theorem applied at `:data x=useParams().id`
(bare expression), `:data x=5` (JSON literal) and `:state x=useParams().id`
(state never takes a bare expression: node dropped, diagnostic recorded). -/
theorem c6_declaration_values_witness :
    parseData (chars (":data ") ++ (chars ("x") ++ '=' :: chars ("useParams().id"))) initCtx =
      (some (.dataN (chars ("x")) (.expr (jsTrim (chars ("useParams().id"))))), initCtx) ∧
    parseData (chars (":data ") ++ (chars ("x") ++ '=' :: chars ("5"))) initCtx =
      (some (.dataN (chars ("x")) (.json (.jnum (chars ("5"))))), initCtx) ∧
    (parseData (chars (":state ") ++ (chars ("x") ++ '=' :: chars ("useParams().id"))) initCtx).1
      = none :=
  ⟨(c6_declaration_values (chars ("x")) (chars ("useParams().id")) initCtx
      (by decide) (by decide) (by decide) (by decide)).1 (by decide),
   (c6_declaration_values (chars ("x")) (chars ("5")) initCtx
      (by decide) (by decide) (by decide) (by decide)).2.1 (.jnum (chars ("5")))
      (by decide) rfl,
   by
     rw [(c6_declaration_values (chars ("x")) (chars ("useParams().id")) initCtx
        (by decide) (by decide) (by decide) (by decide)).2.2.2.2 rfl]⟩

/-! Claim C8: document symbol projection. -/

/-- The four symbol name shapes a child symbol can have. -/
def SymShape (s : DocSym) : Prop :=
  (∃ v c, s.name = chars ("for ") ++ v ++ chars (" in ") ++ c) ∨
  (∃ cond, s.name = chars ("if ") ++ cond) ∨
  (∃ n, s.name = chars ("State ") ++ n) ∨
  (∃ n, s.name = chars ("Data ") ++ n)

mutual

theorem symShape_visit : (n : Ast) → ∀ s ∈ visitSyms n, SymShape s
  | .forN v c _ => by
    intro s hs
    simp only [visitSyms, List.mem_singleton] at hs
    subst hs
    exact Or.inl ⟨v, c, by simp⟩
  | .ifN cond _ => by
    intro s hs
    simp only [visitSyms, List.mem_singleton] at hs
    subst hs
    exact Or.inr (Or.inl ⟨cond, rfl⟩)
  | .stateN nm _ => by
    intro s hs
    simp only [visitSyms, List.mem_singleton] at hs
    subst hs
    exact Or.inr (Or.inr (Or.inl ⟨nm, rfl⟩))
  | .dataN nm _ => by
    intro s hs
    simp only [visitSyms, List.mem_singleton] at hs
    subst hs
    exact Or.inr (Or.inr (Or.inr ⟨nm, rfl⟩))
  | .markdown t v a cs => by
    intro s hs
    simp only [visitSyms] at hs
    exact symShape_visitList cs s hs
  | .component nm p cs => by
    intro s hs
    simp only [visitSyms] at hs
    exact symShape_visitList cs s hs
  | .comment _ => by intro s hs; simp [visitSyms] at hs
  | .text _ => by intro s hs; simp [visitSyms] at hs
  | .fetchN _ _ _ _ _ _ => by intro s hs; simp [visitSyms] at hs
  | .jsN _ => by intro s hs; simp [visitSyms] at hs

theorem symShape_visitList : (l : List Ast) → ∀ s ∈ visitSymsList l, SymShape s
  | [] => by intro s hs; simp [visitSymsList] at hs
  | a :: rest => by
    intro s hs
    simp only [visitSymsList, List.mem_append] at hs
    rcases hs with h | h
    · exact symShape_visit a s h
    · exact symShape_visitList rest s h

end

/-- Claim C8: the document `MainComponent()` / `:for item in items` /
`:if condition` yields exactly one root symbol named MainComponent with
exactly the two children `for item in items` and `if condition` in order;
labeled nodes (`For`, `If`, `State`, `Data`) contribute their own symbol
without descending into their children, other nodes only pass through their
children's symbols, and every child symbol produced anywhere carries one of
the four labeled shapes. -/
theorem c8_document_symbols :
    generateDocumentSymbols
        (chars ("MainComponent()\n:for item in items\n:if condition"))
        (chars ("file.lnr")) =
      [{ name := chars ("MainComponent"), kind := 5, children :=
          [{ name := chars ("for item in items"), kind := 12, children := [] },
           { name := chars ("if condition"), kind := 12, children := [] }] }] ∧
    (∀ v c cs, visitSyms (.forN v c cs) = visitSyms (.forN v c [])) ∧
    (∀ cond cs, visitSyms (.ifN cond cs) = visitSyms (.ifN cond [])) ∧
    (∀ t v a cs, visitSyms (.markdown t v a cs) = visitSymsList cs) ∧
    (∀ nm p cs, visitSyms (.component nm p cs) = visitSymsList cs) ∧
    (∀ n : Ast, ∀ s ∈ visitSyms n, SymShape s) := by
  refine ⟨rfl, fun _ _ _ => rfl, fun _ _ => rfl, fun _ _ _ _ => rfl, fun _ _ _ => rfl, ?_⟩
  exact symShape_visit

/-- Witness for C8: the shape clause applied at a concrete For node. -/
theorem c8_document_symbols_witness :
    SymShape { name := chars ("for i in xs"), kind := 12, children := [] } :=
  c8_document_symbols.2.2.2.2.2 (.forN (chars ("i")) (chars ("xs")) [])
    { name := chars ("for i in xs"), kind := 12, children := [] } (List.Mem.head _)

/-! Claim C10: the indentation-stack invariant. -/

/-- The stack's recorded indents are strictly increasing from bottom to top
(the list head is the top of the stack). -/
def StackOK (st : List Frame) : Prop :=
  List.Chain' (fun a b => b.indent < a.indent) st

theorem stackOK_set_node {f : Frame} {x : Ast} {rest : List Frame}
    (h : StackOK (f :: rest)) : StackOK ({ f with node := x } :: rest) := by
  cases rest with
  | nil => exact List.chain'_singleton _
  | cons g r2 =>
    rw [StackOK, List.chain'_cons] at h ⊢
    exact h

theorem popFrames_spec (indent : Nat) :
    ∀ (fuel : Nat) (st : List Frame) (ast : List Ast),
      StackOK st → st.length ≤ fuel →
      StackOK (popFrames fuel indent st ast).1 ∧
        ∀ f, (popFrames fuel indent st ast).1.head? = some f → f.indent < indent := by
  intro fuel
  induction fuel with
  | zero =>
    intro st ast h hlen
    have : st = [] := List.length_eq_zero.mp (Nat.le_zero.mp hlen)
    subst this
    exact ⟨List.chain'_nil, fun f hf => by cases hf⟩
  | succ fl ih =>
    intro st ast h hlen
    cases st with
    | nil => exact ⟨List.chain'_nil, fun f hf => by cases hf⟩
    | cons top rest =>
      by_cases hle : indent ≤ top.indent
      · cases rest with
        | nil =>
          simp only [popFrames, if_pos hle]
          exact ih [] (ast ++ [top.node]) List.chain'_nil (Nat.zero_le _)
        | cons g r2 =>
          simp only [popFrames, if_pos hle]
          have htail : StackOK (g :: r2) := (List.chain'_cons.mp h).2
          have hok : StackOK ({ g with node := addChild g.node top.node } :: r2) :=
            stackOK_set_node htail
          have hlen2 : ({ g with node := addChild g.node top.node } :: r2).length ≤ fl := by
            simpa using Nat.le_of_succ_le_succ hlen
          exact ih _ ast hok hlen2
      · simp only [popFrames, if_neg hle]
        exact ⟨h, fun f hf => by
          simp only [List.head?_cons, Option.some.injEq] at hf
          subst hf
          omega⟩

theorem parseComment_stack (line : List Char) (ctx : Ctx) :
    ((parseComment line ctx).2).stack = ctx.stack := by
  unfold parseComment; split <;> rfl

theorem parseData_stack (line : List Char) (ctx : Ctx) :
    ((parseData line ctx).2).stack = ctx.stack := by
  unfold parseData
  repeat' (first | rfl | split | dsimp only)

theorem parseFunction_stack (line : List Char) (ctx : Ctx) :
    ((parseFunction line ctx).2).stack = ctx.stack := by
  unfold parseFunction; split <;> rfl

theorem parseDirective_stack (line : List Char) (ctx : Ctx) :
    ((parseDirective line ctx).2).stack = ctx.stack := by
  unfold parseDirective
  repeat' (first | rfl | split | dsimp only)

theorem parsePropPairs_stack :
    ∀ (pairs : List (List Char)) (cname line : List Char) (ctx : Ctx)
      (props : List (List Char × PropVal)),
      ((parsePropPairs cname line pairs ctx props).2).stack = ctx.stack := by
  intro pairs
  induction pairs with
  | nil => intro cname line ctx props; rfl
  | cons p rest ih =>
    intro cname line ctx props
    unfold parsePropPairs
    repeat' (first | exact ih _ _ _ _ | split | dsimp only)

theorem parseComponent_stack (line : List Char) (ctx : Ctx) :
    ((parseComponent line ctx).2).stack = ctx.stack := by
  unfold parseComponent
  split
  · exact parsePropPairs_stack _ _ _ _ _
  · rfl
  · rfl

theorem parseMarkdown_stack (line : List Char) (ctx : Ctx) :
    ((parseMarkdown line ctx).2).stack = ctx.stack := by
  unfold parseMarkdown
  repeat' (first | rfl | split | dsimp only)

theorem classify_stack (line : List Char) (ctx : Ctx) :
    ((classify line ctx).2).stack = ctx.stack := by
  unfold classify
  rcases h1 : parseComment line ctx with ⟨n1, c1⟩
  have e1 : c1.stack = ctx.stack := by
    have := parseComment_stack line ctx; rw [h1] at this; exact this
  cases n1 with
  | some n => exact e1
  | none =>
    dsimp only
    rcases h2 : parseData line c1 with ⟨n2, c2⟩
    have e2 : c2.stack = ctx.stack := by
      have := parseData_stack line c1; rw [h2] at this; exact this.trans e1
    cases n2 with
    | some n => exact e2
    | none =>
      dsimp only
      rcases h3 : parseFunction line c2 with ⟨n3, c3⟩
      have e3 : c3.stack = ctx.stack := by
        have := parseFunction_stack line c2; rw [h3] at this; exact this.trans e2
      cases n3 with
      | some n => exact e3
      | none =>
        dsimp only
        rcases h4 : parseDirective line c3 with ⟨n4, c4⟩
        have e4 : c4.stack = ctx.stack := by
          have := parseDirective_stack line c3; rw [h4] at this; exact this.trans e3
        cases n4 with
        | some n => exact e4
        | none =>
          dsimp only
          rcases h5 : parseComponent line c4 with ⟨n5, c5⟩
          have e5 : c5.stack = ctx.stack := by
            have := parseComponent_stack line c4; rw [h5] at this; exact this.trans e4
          cases n5 with
          | some n => exact e5
          | none =>
            dsimp only
            split
            · exact (parseMarkdown_stack line c5).trans e5
            · exact e5

theorem attachNode_ok (node : Ast) (ind : Nat) (ctx : Ctx)
    (h : StackOK ctx.stack)
    (hh : ∀ f, ctx.stack.head? = some f → f.indent < ind) :
    StackOK ((attachNode node ind ctx).stack) := by
  unfold attachNode
  split
  · cases hs : ctx.stack with
    | nil => exact List.chain'_singleton _
    | cons f rest =>
      rw [StackOK, List.chain'_cons]
      constructor
      · exact hh f (by rw [hs]; rfl)
      · rw [StackOK, hs] at h; exact h
  · split
    · rename_i f rest heq
      simp only []
      rw [heq] at h
      exact stackOK_set_node h
    · simpa using h

theorem classifyAttach_ok (line : List Char) (ind : Nat) (ctx1 : Ctx)
    (h : StackOK ctx1.stack)
    (hh : ∀ f, ctx1.stack.head? = some f → f.indent < ind) :
    StackOK ((classifyAttach line ind ctx1).stack) := by
  unfold classifyAttach
  rcases hc : classify line ctx1 with ⟨nopt, ctx2⟩
  have e2 : ctx2.stack = ctx1.stack := by
    have := classify_stack line ctx1; rw [hc] at this; exact this
  cases nopt with
  | some node =>
    dsimp only
    exact attachNode_ok node ind ctx2 (by rw [StackOK, e2]; exact h)
      (fun f hf => hh f (by rw [← e2]; exact hf))
  | none =>
    dsimp only
    rw [StackOK, e2]
    exact h

theorem parseLine_ok (line : List Char) (ctx : Ctx) (h : StackOK ctx.stack) :
    StackOK ((parseLine line ctx).stack) := by
  unfold parseLine handleIndentation
  have hspec := popFrames_spec (indentOf line) ctx.stack.length ctx.stack ctx.ast h le_rfl
  dsimp only
  rcases hp : popFrames ctx.stack.length (indentOf line) ctx.stack ctx.ast with ⟨st1, ast1⟩
  rw [hp] at hspec
  dsimp only
  dsimp only at hspec
  rcases hspec with ⟨hok1, hh1⟩
  cases st1 with
  | nil =>
    exact classifyAttach_ok line (indentOf line) _ hok1 (fun f hf => by cases hf)
  | cons top rest =>
    dsimp only
    cases htop : top.node
    case jsN body =>
      dsimp only
      by_cases himp : (hasPre (chars ("import ")) (jsTrim line) && importMatch (jsTrim line)) = true
      · simp only [if_pos himp]
        exact hok1
      · simp only [if_neg himp]
        exact stackOK_set_node hok1
    all_goals
      dsimp only
      exact classifyAttach_ok line (indentOf line)
        { stack := top :: rest, ast := ast1, diagnostics := ctx.diagnostics,
          imports := ctx.imports, parentComponent := ctx.parentComponent,
          currentLine := ctx.currentLine } hok1 hh1

theorem parseSpecs_stack :
    ∀ (specs : List (List Char)) (line : List Char) (ctx : Ctx) (acc : List ParamSpec),
      ((parseSpecs line specs ctx acc).2).stack = ctx.stack := by
  intro specs
  induction specs with
  | nil => intro line ctx acc; rfl
  | cons s rest ih =>
    intro line ctx acc
    unfold parseSpecs
    repeat' (first | exact ih _ _ _ | split | dsimp only)

theorem parseSignature_stack (line : List Char) (ctx : Ctx) :
    ((parseSignature line ctx).stack) = ctx.stack := by
  unfold parseSignature
  repeat' (first | rfl | exact parseSpecs_stack _ _ _ _ | split | dsimp only)

theorem processLine_ok (ctx : Ctx) (line : List Char) (h : StackOK ctx.stack) :
    StackOK ((processLine ctx line).stack) := by
  unfold processLine
  split
  · exact h
  · split
    · rw [parseSignature_stack]; exact h
    · exact parseLine_ok line ctx h

theorem processLines_ok :
    ∀ (lines : List (List Char)) (ctx : Ctx), StackOK ctx.stack →
      StackOK ((processLines lines ctx).stack) := by
  intro lines
  induction lines with
  | nil => intro ctx h; exact h
  | cons l rest ih =>
    intro ctx h
    unfold processLines
    exact ih _ (processLine_ok ctx l h)

/-- Claim C10: at every point during the parse of any document — i.e. after
processing any prefix of the line list — the indentation stack's recorded
indents are strictly increasing from bottom to top: entries with indent
`≥` the new line's indent are popped before any push, so a pushed frame's
indent strictly exceeds the indent of the frame below it. -/
theorem c10_stack_strictly_increasing (text : List Char) (k : Nat) :
    StackOK ((processLines (List.take k (jsLines text)) initCtx).stack) :=
  processLines_ok _ _ List.chain'_nil

/-! Claim C3: indentation nesting. -/

theorem mem_spaces {c : Char} {n : Nat} (h : c ∈ spaces n) : c = ' ' :=
  List.eq_of_mem_replicate h

theorem splitNl_append_cons {l : List Char} (rest : List Char) (h : '\n' ∉ l) :
    splitNl (l ++ '\n' :: rest) = l :: splitNl rest := by
  induction l with
  | nil => simp [splitNl]
  | cons c cs ih =>
    have hc : c ≠ '\n' := fun e => h (by simp [e])
    simp only [List.cons_append, splitNl, if_neg hc, List.append_eq]
    rw [ih (fun m => h (by simp [m]))]

theorem splitNl_no_nl {l : List Char} (h : '\n' ∉ l) : splitNl l = [l] := by
  induction l with
  | nil => rfl
  | cons c cs ih =>
    have hc : c ≠ '\n' := fun e => h (by simp [e])
    simp only [splitNl, if_neg hc]
    rw [ih (fun m => h (by simp [m]))]

theorem mem_of_getLast?_eq : ∀ {l : List Char} {c : Char}, l.getLast? = some c → c ∈ l := by
  intro l
  induction l with
  | nil => intro c h; cases h
  | cons a as ih =>
    intro c h
    cases as with
    | nil =>
      simp only [List.getLast?_singleton, Option.some.injEq] at h
      simp [h]
    | cons b bs =>
      rw [List.getLast?_cons_cons] at h
      exact List.mem_cons_of_mem _ (ih h)

theorem stripCR_no_cr {l : List Char} (h : '\r' ∉ l) : stripCR l = l := by
  unfold stripCR
  split
  · rename_i heq
    exact absurd (mem_of_getLast?_eq heq) h
  · rfl

theorem nl_not_mem_spaces_append {X : List Char} (n : Nat) (hX : '\n' ∉ X) :
    '\n' ∉ spaces n ++ X := by
  intro hm
  rcases List.mem_append.mp hm with hs | hx
  · exact absurd (mem_spaces hs) (by decide)
  · exact hX hx

theorem cr_not_mem_spaces_append {X : List Char} (n : Nat) (hX : '\r' ∉ X) :
    '\r' ∉ spaces n ++ X := by
  intro hm
  rcases List.mem_append.mp hm with hs | hx
  · exact absurd (mem_spaces hs) (by decide)
  · exact hX hx

theorem dropWhile_spaces_append (n : Nat) (l : List Char) :
    (spaces n ++ l).dropWhile jsIsSpace = l.dropWhile jsIsSpace :=
  dropWhile_append_all l (fun a ha => by rw [mem_spaces ha]; rfl)

theorem jsTrim_spaces_append (n : Nat) (l : List Char) :
    jsTrim (spaces n ++ l) = jsTrim l := by
  unfold jsTrim
  rw [dropWhile_spaces_append]

theorem takeWhile_spaces_append (n : Nat) (l : List Char) :
    (spaces n ++ l).takeWhile jsIsSpace = spaces n ++ l.takeWhile jsIsSpace :=
  takeWhile_append_all l (fun a ha => by rw [mem_spaces ha]; rfl)

theorem indentOf_spaces (n : Nat) (l : List Char) (h : l.takeWhile jsIsSpace = []) :
    indentOf (spaces n ++ l) = n := by
  unfold indentOf
  rw [takeWhile_spaces_append, h]
  simp [spaces]

theorem declMatch_spaces_none {kwtl X : List Char} (n : Nat)
    (h0 : declMatch (':' :: kwtl) X = none) :
    declMatch (':' :: kwtl) (spaces n ++ X) = none := by
  cases n with
  | zero => simpa [spaces] using h0
  | succ m =>
    have e : spaces (m + 1) ++ X = ' ' :: (spaces m ++ X) := by
      simp [spaces, List.replicate_succ]
    rw [e]
    unfold declMatch
    simp [hasPre]

theorem parseComment_spaces (n : Nat) (X : List Char) (ctx : Ctx) :
    parseComment (spaces n ++ X) ctx = parseComment X ctx := by
  unfold parseComment
  rw [jsTrim_spaces_append]

theorem parseFunction_spaces (n : Nat) (X : List Char) (ctx : Ctx) :
    parseFunction (spaces n ++ X) ctx = parseFunction X ctx := by
  unfold parseFunction
  rw [jsTrim_spaces_append]

theorem parseDirective_spaces (n : Nat) (X : List Char) (ctx : Ctx) :
    parseDirective (spaces n ++ X) ctx = parseDirective X ctx := by
  unfold parseDirective
  rw [jsTrim_spaces_append]

theorem parseData_spaces (n : Nat) (X : List Char) (ctx : Ctx)
    (hd : dataMatch X = none) (hst : stateMatch X = none) :
    parseData (spaces n ++ X) ctx = (none, ctx) := by
  have h1 : dataMatch (spaces n ++ X) = none := by
    rw [dataMatch] at hd ⊢
    exact declMatch_spaces_none n hd
  have h2 : stateMatch (spaces n ++ X) = none := by
    rw [stateMatch] at hst ⊢
    exact declMatch_spaces_none n hst
  unfold parseData
  rw [h1, h2]

theorem classify_spaces_directive (n : Nat) (X : List Char) (ctx : Ctx) (node : Ast)
    (hd : dataMatch X = none) (hst : stateMatch X = none)
    (hcase : parseComment X ctx = (some node, ctx) ∨
      (parseComment X ctx = (none, ctx) ∧ parseFunction X ctx = (none, ctx) ∧
        parseDirective X ctx = (some node, ctx))) :
    classify (spaces n ++ X) ctx = (some node, ctx) := by
  unfold classify
  rw [parseComment_spaces]
  rcases hcase with hc | ⟨hc, hf, hdir⟩
  · rw [hc]
  · rw [hc]
    dsimp only
    rw [parseData_spaces n X ctx hd hst]
    dsimp only
    rw [parseFunction_spaces, hf]
    dsimp only
    rw [parseDirective_spaces, hdir]

theorem parseLine_spaces (n : Nat) (X : List Char) (ctx : Ctx)
    (hX : X.takeWhile jsIsSpace = []) :
    parseLine (spaces n ++ X) ctx =
      (let ctx1 := handleIndentation n ctx
       match ctx1.stack with
       | top :: rest =>
         match top.node with
         | .jsN body =>
           let t := jsTrim X
           if hasPre (chars ("import ")) t && importMatch t then
             { ctx1 with imports := ctx1.imports ++ [t] }
           else { ctx1 with stack := { top with node := .jsN (body ++ [t]) } :: rest }
         | _ => classifyAttach (spaces n ++ X) n ctx1
       | [] => classifyAttach (spaces n ++ X) n ctx1) := by
  unfold parseLine
  rw [indentOf_spaces n X hX, jsTrim_spaces_append]

theorem classifyAttach_directive (line : List Char) (ind : Nat) (ctx : Ctx) (node : Ast)
    (hcls : classify line ctx = (some node, ctx)) (hcont : isContainer node = true) :
    classifyAttach line ind ctx = { ctx with stack := ⟨node, ind⟩ :: ctx.stack } := by
  unfold classifyAttach
  rw [hcls]
  dsimp only
  unfold attachNode
  simp [hcont]

theorem classifyAttach_leaf (line : List Char) (ind : Nat) (ctx : Ctx) (node : Ast)
    (hcls : classify line ctx = (some node, ctx)) (hcont : isContainer node = false) :
    classifyAttach line ind ctx =
      (match ctx.stack with
       | f :: rest => { ctx with stack := { f with node := addChild f.node node } :: rest }
       | [] => { ctx with ast := ctx.ast ++ [node] }) := by
  unfold classifyAttach
  rw [hcls]
  dsimp only
  unfold attachNode
  simp [hcont]

theorem processLines_cons (l : List Char) (ls : List (List Char)) (ctx : Ctx) :
    processLines (l :: ls) ctx =
      processLines ls
        { processLine ctx l with currentLine := (processLine ctx l).currentLine + 1 } := rfl

theorem processLine_body (ctx : Ctx) (n : Nat) (X : List Char)
    (hX : jsTrim X ≠ ([] : List Char)) (hcl : ctx.currentLine ≠ 0) :
    processLine ctx (spaces n ++ X) = parseLine (spaces n ++ X) ctx := by
  unfold processLine
  rw [jsTrim_spaces_append]
  rw [if_neg hX, if_neg hcl]

/-- The document of claim C3: a signature line, `:for` at indent `n1`,
`:if` at indent `n2`, a comment leaf at indent `n3`, and a second `:for`
at indent `n4`. -/
def c3doc (n1 n2 n3 n4 : Nat) : List Char :=
  chars ("Comp()") ++ '\n' ::
    ((spaces n1 ++ chars (":for item in items")) ++ '\n' ::
      ((spaces n2 ++ chars (":if condition")) ++ '\n' ::
        ((spaces n3 ++ chars ("// leaf")) ++ '\n' ::
          (spaces n4 ++ chars (":for a in b")))))

/-- Claim C3: with `:for` at indent `n1`, a strictly-more-indented `:if`
(`n1 < n2`) and an even-more-indented leaf (`n2 < n3`), the If node is a
child of the For node and the leaf a child of the If node; a following line
whose indent `n4` is at most `n1` pops both contexts (the pop condition is
indent `≤` entry, so equal indent also closes), and its node attaches at
the root. -/
theorem c3_indentation_nesting (n1 n2 n3 n4 : Nat)
    (h12 : n1 < n2) (h23 : n2 < n3) (h41 : n4 ≤ n1) :
    parseLunor (c3doc n1 n2 n3 n4) =
      { ast := [.forN (chars ("item")) (chars ("items"))
                  [.ifN (chars ("condition")) [.comment (chars ("leaf"))]],
                .forN (chars ("a")) (chars ("b")) []],
        diagnostics := [],
        component := some ⟨chars ("Comp"), some []⟩,
        imports := [] } := by
  have hsplit : jsLines (c3doc n1 n2 n3 n4) =
      [chars ("Comp()"),
       spaces n1 ++ chars (":for item in items"),
       spaces n2 ++ chars (":if condition"),
       spaces n3 ++ chars ("// leaf"),
       spaces n4 ++ chars (":for a in b")] := by
    unfold jsLines c3doc
    rw [splitNl_append_cons _ (by decide),
        splitNl_append_cons _ (nl_not_mem_spaces_append n1 (by decide)),
        splitNl_append_cons _ (nl_not_mem_spaces_append n2 (by decide)),
        splitNl_append_cons _ (nl_not_mem_spaces_append n3 (by decide)),
        splitNl_no_nl (nl_not_mem_spaces_append n4 (by decide))]
    simp only [List.map_cons, List.map_nil]
    rw [stripCR_no_cr (by decide),
        stripCR_no_cr (cr_not_mem_spaces_append n1 (by decide)),
        stripCR_no_cr (cr_not_mem_spaces_append n2 (by decide)),
        stripCR_no_cr (cr_not_mem_spaces_append n3 (by decide)),
        stripCR_no_cr (cr_not_mem_spaces_append n4 (by decide))]
  have s1 : parseLine (spaces n1 ++ chars (":for item in items"))
      ⟨[], [], [], [], some ⟨chars ("Comp"), some []⟩, 1⟩ =
      ⟨[⟨.forN (chars ("item")) (chars ("items")) [], n1⟩], [], [], [],
        some ⟨chars ("Comp"), some []⟩, 1⟩ := by
    rw [parseLine_spaces _ _ _ (by decide)]
    show classifyAttach (spaces n1 ++ chars (":for item in items")) n1
        ⟨[], [], [], [], some ⟨chars ("Comp"), some []⟩, 1⟩ = _
    rw [classifyAttach_directive _ _ _ (.forN (chars ("item")) (chars ("items")) [])
      (classify_spaces_directive n1 (chars (":for item in items"))
        ⟨[], [], [], [], some ⟨chars ("Comp"), some []⟩, 1⟩
        (.forN (chars ("item")) (chars ("items")) [])
        rfl rfl (Or.inr ⟨rfl, rfl, rfl⟩)) rfl]
  have s2 : parseLine (spaces n2 ++ chars (":if condition"))
      ⟨[⟨.forN (chars ("item")) (chars ("items")) [], n1⟩], [], [], [],
        some ⟨chars ("Comp"), some []⟩, 2⟩ =
      ⟨[⟨.ifN (chars ("condition")) [], n2⟩,
        ⟨.forN (chars ("item")) (chars ("items")) [], n1⟩], [], [], [],
        some ⟨chars ("Comp"), some []⟩, 2⟩ := by
    rw [parseLine_spaces _ _ _ (by decide)]
    have hh : handleIndentation n2
        (⟨[⟨.forN (chars ("item")) (chars ("items")) [], n1⟩], [], [], [],
          some ⟨chars ("Comp"), some []⟩, 2⟩ : Ctx) =
        ⟨[⟨.forN (chars ("item")) (chars ("items")) [], n1⟩], [], [], [],
          some ⟨chars ("Comp"), some []⟩, 2⟩ := by
      unfold handleIndentation
      dsimp only
      simp only [popFrames, if_neg (by omega : ¬ (n2 ≤ n1))]
    rw [hh]
    show classifyAttach (spaces n2 ++ chars (":if condition")) n2 _ = _
    rw [classifyAttach_directive _ _ _ (.ifN (chars ("condition")) [])
      (classify_spaces_directive n2 (chars (":if condition"))
        ⟨[⟨.forN (chars ("item")) (chars ("items")) [], n1⟩], [], [], [],
          some ⟨chars ("Comp"), some []⟩, 2⟩
        (.ifN (chars ("condition")) [])
        rfl rfl (Or.inr ⟨rfl, rfl, rfl⟩)) rfl]
  have s3 : parseLine (spaces n3 ++ chars ("// leaf"))
      ⟨[⟨.ifN (chars ("condition")) [], n2⟩,
        ⟨.forN (chars ("item")) (chars ("items")) [], n1⟩], [], [], [],
        some ⟨chars ("Comp"), some []⟩, 3⟩ =
      ⟨[⟨.ifN (chars ("condition")) [.comment (chars ("leaf"))], n2⟩,
        ⟨.forN (chars ("item")) (chars ("items")) [], n1⟩], [], [], [],
        some ⟨chars ("Comp"), some []⟩, 3⟩ := by
    rw [parseLine_spaces _ _ _ (by decide)]
    have hh : handleIndentation n3
        (⟨[⟨.ifN (chars ("condition")) [], n2⟩,
           ⟨.forN (chars ("item")) (chars ("items")) [], n1⟩], [], [], [],
          some ⟨chars ("Comp"), some []⟩, 3⟩ : Ctx) =
        ⟨[⟨.ifN (chars ("condition")) [], n2⟩,
          ⟨.forN (chars ("item")) (chars ("items")) [], n1⟩], [], [], [],
          some ⟨chars ("Comp"), some []⟩, 3⟩ := by
      unfold handleIndentation
      dsimp only
      simp only [popFrames, if_neg (by omega : ¬ (n3 ≤ n2))]
    rw [hh]
    show classifyAttach (spaces n3 ++ chars ("// leaf")) n3 _ = _
    rw [classifyAttach_leaf _ _ _ (.comment (chars ("leaf")))
      (classify_spaces_directive n3 (chars ("// leaf"))
        ⟨[⟨.ifN (chars ("condition")) [], n2⟩,
          ⟨.forN (chars ("item")) (chars ("items")) [], n1⟩], [], [], [],
          some ⟨chars ("Comp"), some []⟩, 3⟩
        (.comment (chars ("leaf")))
        rfl rfl (Or.inl rfl)) rfl]
    rfl
  have s4 : parseLine (spaces n4 ++ chars (":for a in b"))
      ⟨[⟨.ifN (chars ("condition")) [.comment (chars ("leaf"))], n2⟩,
        ⟨.forN (chars ("item")) (chars ("items")) [], n1⟩], [], [], [],
        some ⟨chars ("Comp"), some []⟩, 4⟩ =
      ⟨[⟨.forN (chars ("a")) (chars ("b")) [], n4⟩],
        [.forN (chars ("item")) (chars ("items"))
          [.ifN (chars ("condition")) [.comment (chars ("leaf"))]]], [], [],
        some ⟨chars ("Comp"), some []⟩, 4⟩ := by
    rw [parseLine_spaces _ _ _ (by decide)]
    have hh : handleIndentation n4
        (⟨[⟨.ifN (chars ("condition")) [.comment (chars ("leaf"))], n2⟩,
           ⟨.forN (chars ("item")) (chars ("items")) [], n1⟩], [], [], [],
          some ⟨chars ("Comp"), some []⟩, 4⟩ : Ctx) =
        ⟨[],
          [.forN (chars ("item")) (chars ("items"))
            [.ifN (chars ("condition")) [.comment (chars ("leaf"))]]], [], [],
          some ⟨chars ("Comp"), some []⟩, 4⟩ := by
      unfold handleIndentation
      dsimp only
      simp only [popFrames, if_pos (by omega : n4 ≤ n2), if_pos h41]
      rfl
    rw [hh]
    show classifyAttach (spaces n4 ++ chars (":for a in b")) n4 _ = _
    rw [classifyAttach_directive _ _ _ (.forN (chars ("a")) (chars ("b")) [])
      (classify_spaces_directive n4 (chars (":for a in b"))
        ⟨[],
          [.forN (chars ("item")) (chars ("items"))
            [.ifN (chars ("condition")) [.comment (chars ("leaf"))]]], [], [],
          some ⟨chars ("Comp"), some []⟩, 4⟩
        (.forN (chars ("a")) (chars ("b")) [])
        rfl rfl (Or.inr ⟨rfl, rfl, rfl⟩)) rfl]
  have hrun : processLines
      [chars ("Comp()"),
       spaces n1 ++ chars (":for item in items"),
       spaces n2 ++ chars (":if condition"),
       spaces n3 ++ chars ("// leaf"),
       spaces n4 ++ chars (":for a in b")] initCtx =
      ⟨[⟨.forN (chars ("a")) (chars ("b")) [], n4⟩],
        [.forN (chars ("item")) (chars ("items"))
          [.ifN (chars ("condition")) [.comment (chars ("leaf"))]]], [], [],
        some ⟨chars ("Comp"), some []⟩, 5⟩ := by
    rw [processLines_cons]
    show processLines _ ⟨[], [], [], [], some ⟨chars ("Comp"), some []⟩, 1⟩ = _
    rw [processLines_cons,
        processLine_body ⟨[], [], [], [], some ⟨chars ("Comp"), some []⟩, 1⟩ n1
          (chars (":for item in items")) (by decide) (by decide), s1]
    show processLines _
      ⟨[⟨.forN (chars ("item")) (chars ("items")) [], n1⟩], [], [], [],
        some ⟨chars ("Comp"), some []⟩, 2⟩ = _
    rw [processLines_cons,
        processLine_body
          ⟨[⟨.forN (chars ("item")) (chars ("items")) [], n1⟩], [], [], [],
            some ⟨chars ("Comp"), some []⟩, 2⟩ n2
          (chars (":if condition")) (by decide) (by exact Nat.succ_ne_zero 1), s2]
    show processLines _
      ⟨[⟨.ifN (chars ("condition")) [], n2⟩,
        ⟨.forN (chars ("item")) (chars ("items")) [], n1⟩], [], [], [],
        some ⟨chars ("Comp"), some []⟩, 3⟩ = _
    rw [processLines_cons,
        processLine_body
          ⟨[⟨.ifN (chars ("condition")) [], n2⟩,
            ⟨.forN (chars ("item")) (chars ("items")) [], n1⟩], [], [], [],
            some ⟨chars ("Comp"), some []⟩, 3⟩ n3
          (chars ("// leaf")) (by decide) (by exact Nat.succ_ne_zero 2), s3]
    show processLines _
      ⟨[⟨.ifN (chars ("condition")) [.comment (chars ("leaf"))], n2⟩,
        ⟨.forN (chars ("item")) (chars ("items")) [], n1⟩], [], [], [],
        some ⟨chars ("Comp"), some []⟩, 4⟩ = _
    rw [processLines_cons,
        processLine_body
          ⟨[⟨.ifN (chars ("condition")) [.comment (chars ("leaf"))], n2⟩,
            ⟨.forN (chars ("item")) (chars ("items")) [], n1⟩], [], [], [],
            some ⟨chars ("Comp"), some []⟩, 4⟩ n4
          (chars (":for a in b")) (by decide) (by exact Nat.succ_ne_zero 3), s4]
    rfl
  unfold parseLunor
  rw [hsplit]
  dsimp only
  split
  · rename_i hcond
    simp only [List.headD_cons, List.isEmpty_cons, Bool.false_or,
      decide_eq_true_eq] at hcond
    exact absurd hcond (by decide)
  · rw [hrun]
    have hclose : closeAll
        (⟨[⟨.forN (chars ("a")) (chars ("b")) [], n4⟩],
          [.forN (chars ("item")) (chars ("items"))
            [.ifN (chars ("condition")) [.comment (chars ("leaf"))]]], [], [],
          some ⟨chars ("Comp"), some []⟩, 5⟩ : Ctx) =
        ⟨[],
          [.forN (chars ("item")) (chars ("items"))
            [.ifN (chars ("condition")) [.comment (chars ("leaf"))]],
           .forN (chars ("a")) (chars ("b")) []], [], [],
          some ⟨chars ("Comp"), some []⟩, 5⟩ := by
      unfold closeAll
      dsimp only
      simp only [popFrames, if_pos (Nat.zero_le n4)]
      rfl
    rw [hclose]

/-- Witness for C3 at indents `0 < 1 < 2` and a trailing line at indent 0. -/
theorem c3_indentation_nesting_witness :
    parseLunor (c3doc 0 1 2 0) =
      { ast := [.forN (chars ("item")) (chars ("items"))
                  [.ifN (chars ("condition")) [.comment (chars ("leaf"))]],
                .forN (chars ("a")) (chars ("b")) []],
        diagnostics := [],
        component := some ⟨chars ("Comp"), some []⟩,
        imports := [] } :=
  c3_indentation_nesting 0 1 2 0 (by decide) (by decide) (by decide)

/-- The splitter state machine of `parseComponent` run over a chunk without
splitting: `none` when a split point (a space at brace depth 0 outside
quotes) is hit, otherwise the final (depth, quote) state. The escape flag
models `prevChar = \x27\\\x27`. -/
def tokRun : List Char → Bool → Int → Bool → Option (Int × Bool)
  | [], _, depth, inQ => some (depth, inQ)
  | c :: rest, esc, depth, inQ =>
    if c = '"' && !esc then tokRun rest (c == '\\') depth (!inQ)
    else if !inQ then
      if c = '\x7b' then tokRun rest (c == '\\') (depth + 1) inQ
      else if c = '\x7d' then tokRun rest (c == '\\') (depth - 1) inQ
      else if c = ' ' && depth = 0 then none
      else tokRun rest (c == '\\') depth inQ
    else tokRun rest (c == '\\') depth inQ

/-- A well-formed prop token: the splitter scans it without finding a split
point, ends at depth 0 outside quotes, and it is its own trim and nonempty. -/
def TokOk (t : List Char) : Prop :=
  tokRun t false 0 false = some (0, false) ∧ jsTrim t = t ∧ t ≠ ([] : List Char)

instance decTokOk (t : List Char) : Decidable (TokOk t) :=
  inferInstanceAs (Decidable (_ ∧ _ ∧ _))

/-- Tokens joined by single separating spaces, as on an invocation line. -/
def joinSp : List (List Char) → List Char
  | [] => []
  | [t] => t
  | t :: rest => t ++ ' ' :: joinSp rest

theorem esc_step (c : Char) :
    decide ((some c : Option Char) = some '\\') = (c == '\\') := by
  by_cases hc : c = '\\' <;> simp [hc]

theorem splitGo_pass (l : List Char) (tok : List Char) :
    ∀ (cur : List Char) (prev : Option Char) (esc : Bool) (d d' : Int) (q q' : Bool),
    decide (prev = some '\\') = esc →
    tokRun tok esc d q = some (d', q') →
    ∃ prev2 : Option Char,
      splitGo (tok ++ l) prev cur d q = splitGo l prev2 (cur ++ tok) d' q' := by
  induction tok with
  | nil =>
    intro cur prev esc d d' q q' hesc h
    simp only [tokRun, Option.some.injEq, Prod.mk.injEq] at h
    obtain ⟨rfl, rfl⟩ := h
    exact ⟨prev, by simp⟩
  | cons c rest ih =>
    intro cur prev esc d d' q q' hesc h
    simp only [tokRun] at h
    simp only [List.cons_append, splitGo, decide_not, hesc, List.append_eq]
    by_cases h1 : (c = '"' && !esc) = true
    · rw [if_pos h1]
      rw [if_pos h1] at h
      obtain ⟨p2, hp⟩ := ih (cur ++ [c]) (some c) (c == '\\') d d' (!q) q' (esc_step c) h
      rw [← List.append_cons] at hp
      exact ⟨p2, hp⟩
    · rw [if_neg h1]
      rw [if_neg h1] at h
      by_cases h2 : (!q) = true
      · rw [if_pos h2]
        rw [if_pos h2] at h
        by_cases h3 : c = '\x7b'
        · rw [if_pos h3]
          rw [if_pos h3] at h
          obtain ⟨p2, hp⟩ := ih (cur ++ [c]) (some c) (c == '\\') (d + 1) d' q q' (esc_step c) h
          rw [← List.append_cons] at hp
          exact ⟨p2, hp⟩
        · rw [if_neg h3]
          rw [if_neg h3] at h
          by_cases h4 : c = '\x7d'
          · rw [if_pos h4]
            rw [if_pos h4] at h
            obtain ⟨p2, hp⟩ := ih (cur ++ [c]) (some c) (c == '\\') (d - 1) d' q q' (esc_step c) h
            rw [← List.append_cons] at hp
            exact ⟨p2, hp⟩
          · rw [if_neg h4]
            rw [if_neg h4] at h
            by_cases h5 : (c = ' ' && d = 0) = true
            · rw [if_pos h5] at h
              exact absurd h (by simp)
            · rw [if_neg h5]
              rw [if_neg h5] at h
              obtain ⟨p2, hp⟩ := ih (cur ++ [c]) (some c) (c == '\\') d d' q q' (esc_step c) h
              rw [← List.append_cons] at hp
              exact ⟨p2, hp⟩
      · rw [if_neg h2]
        rw [if_neg h2] at h
        obtain ⟨p2, hp⟩ := ih (cur ++ [c]) (some c) (c == '\\') d d' q q' (esc_step c) h
        rw [← List.append_cons] at hp
        exact ⟨p2, hp⟩

theorem splitGo_space (rest cur : List Char) (prev : Option Char) :
    splitGo (' ' :: rest) prev cur 0 false =
      if jsTrim cur ≠ ([] : List Char) then
        jsTrim cur :: splitGo rest (some ' ') [] 0 false
      else splitGo rest (some ' ') [] 0 false := rfl

theorem splitGo_join (toks : List (List Char)) :
    ∀ (prev : Option Char),
    decide (prev = some '\\') = false →
    (∀ t ∈ toks, TokOk t) →
    splitGo (joinSp toks) prev [] 0 false = toks := by
  induction toks with
  | nil => intro prev hp h; rfl
  | cons t rest ih =>
    intro prev hp h
    have ht : TokOk t := h t (List.mem_cons_self t rest)
    have hrest : ∀ t2 ∈ rest, TokOk t2 := fun t2 h2 => h t2 (List.mem_cons_of_mem t h2)
    have htne : jsTrim t ≠ ([] : List Char) := by rw [ht.2.1]; exact ht.2.2
    cases rest with
    | nil =>
      obtain ⟨p2, hpass⟩ := splitGo_pass [] t [] prev false 0 0 false false hp ht.1
      rw [List.append_nil] at hpass
      show splitGo t prev [] 0 false = [t]
      rw [hpass]
      show (if jsTrim ([] ++ t) ≠ ([] : List Char) then [jsTrim ([] ++ t)] else []) = [t]
      rw [List.nil_append, if_pos htne, ht.2.1]
    | cons t2 rest2 =>
      obtain ⟨p2, hpass⟩ :=
        splitGo_pass (' ' :: joinSp (t2 :: rest2)) t [] prev false 0 0 false false hp ht.1
      show splitGo (t ++ ' ' :: joinSp (t2 :: rest2)) prev [] 0 false = t :: t2 :: rest2
      rw [hpass, List.nil_append, splitGo_space, if_pos htne, ht.2.1,
          ih (some ' ') rfl hrest]

/-- The key part of a `key=value` token, as computed by `parsePropPairs`. -/
def keyOf (prop : List Char) : List Char :=
  prop.takeWhile (fun c => !(c = '='))

/-- The value part of a `key=value` token, as computed by `parsePropPairs`. -/
def valOf (prop : List Char) : List Char :=
  jsTrim (if prop.contains '=' then List.drop ((keyOf prop).length + 1) prop else [])

theorem setProp_keys_of_not_mem (ps : List (List Char × PropVal)) (k : List Char)
    (v : PropVal) (h : k ∉ ps.map Prod.fst) :
    (setProp ps k v).map Prod.fst = ps.map Prod.fst ++ [k] := by
  induction ps with
  | nil => rfl
  | cons p rest ih =>
    obtain ⟨k0, v0⟩ := p
    simp only [List.map_cons, List.mem_cons] at h
    push_neg at h
    simp only [setProp]
    rw [if_neg (fun he => h.1 he.symm)]
    simp only [List.map_cons, List.cons_append, List.cons.injEq, true_and]
    exact ih h.2

theorem setProp_keys_of_mem (ps : List (List Char × PropVal)) (k : List Char)
    (v : PropVal) (h : k ∈ ps.map Prod.fst) :
    (setProp ps k v).map Prod.fst = ps.map Prod.fst := by
  induction ps with
  | nil => simp at h
  | cons p rest ih =>
    obtain ⟨k0, v0⟩ := p
    simp only [setProp]
    by_cases he : k0 = k
    · rw [if_pos he]
      simp [he]
    · rw [if_neg he]
      simp only [List.map_cons, List.mem_cons] at h
      rcases h with h | h
      · exact absurd h.symm he
      · simp [ih h]

theorem length_setProp_of_not_mem (ps : List (List Char × PropVal)) (k : List Char)
    (v : PropVal) (h : k ∉ ps.map Prod.fst) :
    (setProp ps k v).length = ps.length + 1 := by
  have := setProp_keys_of_not_mem ps k v h
  have hl : ((setProp ps k v).map Prod.fst).length = (ps.map Prod.fst ++ [k]).length := by
    rw [this]
  simpa using hl

theorem length_setProp_of_mem (ps : List (List Char × PropVal)) (k : List Char)
    (v : PropVal) (h : k ∈ ps.map Prod.fst) :
    (setProp ps k v).length = ps.length := by
  have := setProp_keys_of_mem ps k v h
  have hl : ((setProp ps k v).map Prod.fst).length = (ps.map Prod.fst).length := by
    rw [this]
  simpa using hl

theorem mem_of_getProp_truthy (ps : List (List Char × PropVal)) (k : List Char)
    (h : propTruthy (getProp ps k) = true) : k ∈ ps.map Prod.fst := by
  induction ps with
  | nil => exact absurd h (by simp [getProp, propTruthy])
  | cons p rest ih =>
    obtain ⟨k0, v0⟩ := p
    simp only [getProp] at h
    by_cases he : k0 = k
    · subst he
      simp only [List.map_cons]
      exact List.mem_cons_self _ _
    · rw [if_neg he] at h
      simp only [List.map_cons, List.mem_cons]
      exact Or.inr (ih h)

theorem route_rewrite_length (cname : List Char)
    (props1 : List (List Char × PropVal)) (w : PropVal) :
    (if cname = chars ("Route") && propTruthy (getProp props1 (chars ("element"))) then
        setProp props1 (chars ("element")) w
      else props1).length = props1.length := by
  by_cases hr : (cname = chars ("Route") && propTruthy (getProp props1 (chars ("element")))) = true
  · rw [if_pos hr]
    exact length_setProp_of_mem _ _ _ (mem_of_getProp_truthy _ _ (by simp only [Bool.and_eq_true] at hr; exact hr.2))
  · rw [if_neg hr]

theorem route_rewrite_keys (cname : List Char)
    (props1 : List (List Char × PropVal)) (w : PropVal) :
    (if cname = chars ("Route") && propTruthy (getProp props1 (chars ("element"))) then
        setProp props1 (chars ("element")) w
      else props1).map Prod.fst = props1.map Prod.fst := by
  by_cases hr : (cname = chars ("Route") && propTruthy (getProp props1 (chars ("element")))) = true
  · rw [if_pos hr]
    exact setProp_keys_of_mem _ _ _ (mem_of_getProp_truthy _ _ (by simp only [Bool.and_eq_true] at hr; exact hr.2))
  · rw [if_neg hr]

theorem parsePropPairs_length (cname line : List Char) (pairs : List (List Char)) :
    ∀ (ctx : Ctx) (props : List (List Char × PropVal)),
    (∀ p ∈ pairs, jsTrim (keyOf p) ≠ ([] : List Char) ∧ valOf p ≠ ([] : List Char)) →
    (pairs.map (fun p => jsTrim (keyOf p))).Nodup →
    (∀ p ∈ pairs, jsTrim (keyOf p) ∉ props.map Prod.fst) →
    ((parsePropPairs cname line pairs ctx props).1).length = props.length + pairs.length := by
  induction pairs with
  | nil => intro ctx props _ _ _; simp [parsePropPairs]
  | cons prop rest ih =>
    intro ctx props hok hnd hdisj
    have hp := hok prop (List.mem_cons_self prop rest)
    have hnotmem := hdisj prop (List.mem_cons_self prop rest)
    have hhead : jsTrim (keyOf prop) ∉ rest.map (fun p => jsTrim (keyOf p)) :=
      (List.nodup_cons.mp hnd).1
    have hndrest := (List.nodup_cons.mp hnd).2
    have hokrest : ∀ p ∈ rest,
        jsTrim (keyOf p) ≠ ([] : List Char) ∧ valOf p ≠ ([] : List Char) :=
      fun p h2 => hok p (List.mem_cons_of_mem prop h2)
    have hdisjrest0 : ∀ p ∈ rest, jsTrim (keyOf p) ∉ props.map Prod.fst :=
      fun p h2 => hdisj p (List.mem_cons_of_mem prop h2)
    simp only [keyOf, valOf] at hp hnotmem hhead hokrest hdisjrest0 hndrest
    simp only [parsePropPairs]
    rw [if_neg (by
      simp only [Bool.or_eq_true, decide_eq_true_eq]
      rintro (hc | hc)
      · exact hp.1 hc
      · exact hp.2 hc)]
    refine Eq.trans (ih ctx _ (by
        intro p h2
        have := hokrest p h2
        simpa [keyOf, valOf] using this) (by
        simpa [keyOf] using hndrest) ?_) ?_
    · intro p h2
      simp only [keyOf]
      rw [route_rewrite_keys, setProp_keys_of_not_mem props _ _ hnotmem]
      simp only [List.mem_append, List.mem_singleton]
      push_neg
      refine ⟨hdisjrest0 p h2, fun he => hhead ?_⟩
      rw [← he]
      exact List.mem_map_of_mem _ h2
    · rw [route_rewrite_length, length_setProp_of_not_mem props _ _ hnotmem]
      simp only [List.length_cons]
      omega

/-- Counterexample to claim C5 as stated: a line with a repeated key is a
component invocation line whose property values contain no internal spaces
at all, yet `:C a=1 a=2` yields one property for two `key=value` tokens —
the later assignment overwrites the earlier one (JavaScript object
semantics), so "exactly one property per key=value token" fails. -/
theorem c5_counterexample :
    splitGo (chars ("a=1 a=2")) none [] 0 false = [chars ("a=1"), chars ("a=2")] ∧
    parseComponent (chars (":C a=1 a=2")) initCtx =
      (some (.component (chars ("C")) [(chars ("a"), .num (chars ("2")))] []), initCtx) ∧
    ((parsePropPairs (chars ("C")) (chars (":C a=1 a=2"))
        [chars ("a=1"), chars ("a=2")] initCtx []).1).length = 1 :=
  ⟨rfl, rfl, rfl⟩

/-- Claim C5, amended: the prop splitter never splits inside double quotes
or inside braces — joining any list of well-formed tokens with spaces and
splitting returns exactly those tokens; the pair loop yields exactly one
property per `key=value` token provided the keys are pairwise distinct (a
repeated key overwrites its earlier value instead of adding a property);
and the example line `:Card title="Hello World" meta=\x7ba.b + 1\x7d`
parses to a component with exactly the two properties `title` (string) and
`meta` (expression). -/
theorem c5_prop_tokenization :
    (∀ toks : List (List Char), (∀ t ∈ toks, TokOk t) →
       splitGo (joinSp toks) none [] 0 false = toks)
    ∧ (∀ (cname line : List Char) (ctx : Ctx) (pairs : List (List Char)),
       (∀ p ∈ pairs, jsTrim (keyOf p) ≠ ([] : List Char) ∧ valOf p ≠ ([] : List Char)) →
       (pairs.map (fun p => jsTrim (keyOf p))).Nodup →
       ((parsePropPairs cname line pairs ctx []).1).length = pairs.length)
    ∧ parseComponent (chars (":Card title=\"Hello World\" meta=\x7ba.b + 1\x7d")) initCtx =
        (some (.component (chars ("Card"))
          [(chars ("title"), .str (chars ("Hello World"))),
           (chars ("meta"), .expr (chars ("a.b + 1")))] []), initCtx) := by
  refine ⟨fun toks h => splitGo_join toks none rfl h, ?_, ?_⟩
  · intro cname line ctx pairs hok hnd
    have hlen := parsePropPairs_length cname line pairs ctx [] hok hnd (by simp)
    simpa using hlen
  · rfl

/-- Witness for C5: the example tokens survive splitting unsplit, and two
distinct `key=value` pairs yield exactly two properties. -/
theorem c5_prop_tokenization_witness :
    splitGo (joinSp [chars ("title=\"Hello World\""), chars ("meta=\x7ba.b + 1\x7d")])
        none [] 0 false =
      [chars ("title=\"Hello World\""), chars ("meta=\x7ba.b + 1\x7d")] ∧
    ((parsePropPairs (chars ("Card")) (chars ("t"))
        [chars ("a=1"), chars ("b=2")] initCtx []).1).length = 2 :=
  ⟨c5_prop_tokenization.1 _ (by decide),
   c5_prop_tokenization.2.1 _ _ _ _ (by decide) (by decide)⟩

/-- The negative-lookahead body of the parameter split `/,(?![^(]*\))/` at a
position: a `)` is reachable through non-`(` characters. -/
def closesEarly (l : List Char) : Bool :=
  (l.takeWhile (fun d => !(d = '('))).contains ')'

/-- Every comma inside the chunk is protected: the lookahead finds a `)`
(before any `(`) already inside the chunk, so the splitter keeps scanning
regardless of what follows. -/
def noCommaSplit : List Char → Bool
  | [] => true
  | c :: rest =>
    if c = ',' then closesEarly rest && noCommaSplit rest
    else noCommaSplit rest

/-- Prepend a whole chunk to the first bucket of a split result. -/
def consAll : List Char → List (List Char) → List (List Char)
  | [], r => r
  | c :: cs, r => consHead c (consAll cs r)

/-- The parameter-spec text `name[?]:type`. -/
def specStr (p : List Char × Bool × List Char) : List Char :=
  p.1 ++ (if p.2.1 then ['?'] else ([] : List Char)) ++ ':' :: p.2.2

/-- Parameter specs joined by the `, ` separator. -/
def joinComma : List (List Char) → List Char
  | [] => []
  | [s] => s
  | s :: rest => s ++ ',' :: ' ' :: joinComma rest

/-- A component signature line `Name(p1:t1, p2?:t2, ...)`. -/
def sigLine (name : List Char) (ps : List (List Char × Bool × List Char)) : List Char :=
  name ++ '(' :: (joinComma (ps.map specStr) ++ [')'])

/-- A well-formed parameter: word-character name, and a nonempty trimmed
single-line type whose commas all sit inside parentheses (formally: every
comma is followed by a `)` before any `(`, and no stray `)` precedes the
first `(`). -/
def SpecOk (p : List Char × Bool × List Char) : Prop :=
  p.1 ≠ ([] : List Char) ∧ p.1.all isWordChar = true ∧
  p.2.2 ≠ ([] : List Char) ∧ jsTrim p.2.2 = p.2.2 ∧
  '\n' ∉ p.2.2 ∧ '\r' ∉ p.2.2 ∧
  noCommaSplit p.2.2 = true ∧ closesEarly p.2.2 = false

instance decSpecOk (p : List Char × Bool × List Char) : Decidable (SpecOk p) :=
  inferInstanceAs (Decidable (_ ∧ _ ∧ _ ∧ _ ∧ _ ∧ _ ∧ _ ∧ _))

theorem closesEarly_append_true (l t : List Char) (h : closesEarly l = true) :
    closesEarly (l ++ t) = true := by
  induction l with
  | nil => simp [closesEarly, List.takeWhile] at h
  | cons c cs ih =>
    by_cases hc : c = '('
    · subst hc
      unfold closesEarly at h
      rw [List.takeWhile_cons] at h
      simp at h
    · unfold closesEarly at h ih ⊢
      rw [List.takeWhile_cons] at h
      rw [List.cons_append, List.takeWhile_cons]
      rw [if_pos (by simp [hc])] at h
      rw [if_pos (by simp [hc])]
      simp only [List.contains_cons] at h ⊢
      rcases Bool.or_eq_true_iff.mp h with h1 | h1
      · rw [h1]; rfl
      · rw [ih h1]; simp


theorem closesEarly_cons (c : Char) (l : List Char) (h1 : c ≠ '(') (h2 : c ≠ ')') :
    closesEarly (c :: l) = closesEarly l := by
  unfold closesEarly
  rw [List.takeWhile_cons, if_pos (by simp [h1])]
  simp only [List.contains_cons]
  rw [show (')' == c) = false from beq_eq_false_iff_ne.mpr (Ne.symm h2)]
  simp

theorem closesEarly_append_false (l t : List Char) (hl : closesEarly l = false)
    (ht : closesEarly t = false) : closesEarly (l ++ t) = false := by
  induction l with
  | nil => simpa using ht
  | cons c cs ih =>
    by_cases hc : c = '('
    · subst hc
      unfold closesEarly
      rw [List.cons_append, List.takeWhile_cons]
      simp
    · by_cases hc2 : c = ')'
      · subst hc2
        unfold closesEarly at hl
        rw [List.takeWhile_cons, if_pos (by simp [hc])] at hl
        simp at hl
      · rw [List.cons_append, closesEarly_cons c _ hc hc2]
        rw [closesEarly_cons c _ hc hc2] at hl
        exact ih hl

theorem closesEarly_chunk_append (x y : List Char)
    (h : ∀ c ∈ x, c ≠ '(' ∧ c ≠ ')') :
    closesEarly (x ++ y) = closesEarly y := by
  induction x with
  | nil => rfl
  | cons c cs ih =>
    have hc := h c (List.mem_cons_self c cs)
    rw [List.cons_append, closesEarly_cons c _ hc.1 hc.2]
    exact ih (fun d hd => h d (List.mem_cons_of_mem c hd))

theorem wordChar_no_paren {c : Char} (h : isWordChar c = true) : c ≠ '(' ∧ c ≠ ')' :=
  ⟨wordChar_ne h (by decide), wordChar_ne h (by decide)⟩

theorem mem_name_opt {p : List Char × Bool × List Char} {c : Char}
    (h : SpecOk p) (hc : c ∈ p.1 ++ (if p.2.1 then ['?'] else ([] : List Char))) :
    isWordChar c = true ∨ c = '?' := by
  rcases List.mem_append.mp hc with hm | hm
  · exact Or.inl (List.all_eq_true.mp h.2.1 c hm)
  · cases hp : p.2.1 <;> rw [hp] at hm <;> simp at hm
    exact Or.inr hm

theorem closesEarly_specStr (p : List Char × Bool × List Char) (h : SpecOk p) :
    closesEarly (specStr p) = false := by
  unfold specStr
  rw [closesEarly_chunk_append _ _ (fun c hc => by
    rcases mem_name_opt h hc with hw | rfl
    · exact wordChar_no_paren hw
    · exact ⟨by decide, by decide⟩)]
  rw [closesEarly_cons ':' _ (by decide) (by decide)]
  exact h.2.2.2.2.2.2.2

theorem closesEarly_joinComma (ps : List (List Char × Bool × List Char))
    (h : ∀ p ∈ ps, SpecOk p) :
    closesEarly (joinComma (ps.map specStr)) = false := by
  induction ps with
  | nil => rfl
  | cons p rest ih =>
    have hp := h p (List.mem_cons_self p rest)
    have hrest := fun q hq => h q (List.mem_cons_of_mem p hq)
    cases rest with
    | nil => exact closesEarly_specStr p hp
    | cons q rest2 =>
      show closesEarly (specStr p ++ ',' :: ' ' :: joinComma ((q :: rest2).map specStr)) = false
      refine closesEarly_append_false _ _ (closesEarly_specStr p hp) ?_
      rw [closesEarly_cons ',' _ (by decide) (by decide),
          closesEarly_cons ' ' _ (by decide) (by decide)]
      exact ih hrest

theorem noCommaSplit_chunk_append (x y : List Char) (h : ',' ∉ x) :
    noCommaSplit (x ++ y) = noCommaSplit y := by
  induction x with
  | nil => rfl
  | cons c cs ih =>
    have hc : ¬ c = ',' := fun he => h (he ▸ List.mem_cons_self c cs)
    rw [List.cons_append]
    show (if c = ',' then closesEarly (cs ++ y) && noCommaSplit (cs ++ y)
          else noCommaSplit (cs ++ y)) = noCommaSplit y
    rw [if_neg hc]
    exact ih (fun hm => h (List.mem_cons_of_mem c hm))

theorem noCommaSplit_specStr (p : List Char × Bool × List Char) (h : SpecOk p) :
    noCommaSplit (specStr p) = true := by
  unfold specStr
  rw [noCommaSplit_chunk_append _ _ (fun hm => by
    rcases mem_name_opt h hm with hw | he
    · exact absurd hw (by decide)
    · exact absurd he (by decide))]
  show (if (':' : Char) = ',' then closesEarly p.2.2 && noCommaSplit p.2.2
        else noCommaSplit p.2.2) = true
  rw [if_neg (by decide)]
  exact h.2.2.2.2.2.2.1

theorem consAll_cons (s h : List Char) (t : List (List Char)) :
    consAll s (h :: t) = (s ++ h) :: t := by
  induction s with
  | nil => rfl
  | cons c cs ih => simp [consAll, ih, consHead]

theorem signatureSplit_pass (t : List Char) (s : List Char) (h : noCommaSplit s = true) :
    signatureSplit (s ++ t) = consAll s (signatureSplit t) := by
  induction s with
  | nil => rfl
  | cons c cs ih =>
    unfold noCommaSplit at h
    rw [List.cons_append]
    conv_lhs => rw [signatureSplit]
    by_cases hc : c = ','
    · subst hc
      rw [if_pos rfl] at h
      obtain ⟨h1, h2⟩ := Bool.and_eq_true_iff.mp h
      rw [if_pos rfl, if_pos (show ((cs ++ t).takeWhile
          (fun d => !(d = '('))).contains ')' = true from closesEarly_append_true cs t h1),
        ih h2]
      rfl
    · rw [if_neg hc] at h
      rw [if_neg hc, ih h]
      rfl

theorem signatureSplit_joinComma (ps : List (List Char × Bool × List Char)) :
    ∀ (p : List Char × Bool × List Char), SpecOk p → (∀ q ∈ ps, SpecOk q) →
    signatureSplit (joinComma ((p :: ps).map specStr)) =
      specStr p :: ps.map (fun q => ' ' :: specStr q) := by
  induction ps with
  | nil =>
    intro p hp _
    show signatureSplit (specStr p) = [specStr p]
    rw [show specStr p = specStr p ++ ([] : List Char) from (List.append_nil _).symm,
        signatureSplit_pass _ _ (noCommaSplit_specStr p hp)]
    rw [show signatureSplit ([] : List Char) = [([] : List Char)] from rfl, consAll_cons]
  | cons q rest2 ih =>
    intro p hp hq
    have hq1 : SpecOk q := hq q (List.mem_cons_self q rest2)
    have hrest : ∀ r ∈ rest2, SpecOk r := fun r hr => hq r (List.mem_cons_of_mem q hr)
    show signatureSplit (specStr p ++ ',' :: ' ' :: joinComma ((q :: rest2).map specStr)) =
      specStr p :: (' ' :: specStr q) :: rest2.map (fun r => ' ' :: specStr r)
    rw [signatureSplit_pass _ _ (noCommaSplit_specStr p hp)]
    have hlook : closesEarly (' ' :: joinComma ((q :: rest2).map specStr)) = false := by
      rw [closesEarly_cons ' ' _ (by decide) (by decide)]
      exact closesEarly_joinComma (q :: rest2) hq
    conv_lhs => rw [signatureSplit]
    rw [if_pos rfl, if_neg (by rw [show ((' ' :: joinComma ((q :: rest2).map specStr)).takeWhile
        (fun d => !(d = '('))).contains ')' = closesEarly
        (' ' :: joinComma ((q :: rest2).map specStr)) from rfl, hlook]; exact Bool.false_ne_true)]
    conv_lhs => rw [signatureSplit]
    rw [if_neg (by decide : ¬ (' ' = ','))]
    rw [ih q hq1 hrest]
    rw [consAll_cons]
    simp [consHead]

theorem dropWhile_eq_self_of_trim (t : List Char) (ht : jsTrim t = t) :
    t.dropWhile jsIsSpace = t := by
  have h1 : (t.dropWhile jsIsSpace).length ≤ t.length :=
    (List.dropWhile_suffix _).length_le
  have h2 : t.length ≤ (t.dropWhile jsIsSpace).length := by
    conv_lhs => rw [← ht]
    unfold jsTrim
    calc (((t.dropWhile jsIsSpace).reverse.dropWhile jsIsSpace).reverse).length
        = ((t.dropWhile jsIsSpace).reverse.dropWhile jsIsSpace).length := by
          rw [List.length_reverse]
      _ ≤ (t.dropWhile jsIsSpace).reverse.length := (List.dropWhile_suffix _).length_le
      _ = (t.dropWhile jsIsSpace).length := by rw [List.length_reverse]
  exact (List.dropWhile_suffix _).eq_of_length (le_antisymm h1 h2)

theorem reverse_dropWhile_eq_self_of_trim (t : List Char) (ht : jsTrim t = t) :
    t.reverse.dropWhile jsIsSpace = t.reverse := by
  have hd := dropWhile_eq_self_of_trim t ht
  have ht2 := ht
  unfold jsTrim at ht2
  rw [hd] at ht2
  have := congrArg List.reverse ht2
  simpa using this

theorem head_not_space_of_dropWhile_id {t : List Char}
    (hd : t.dropWhile jsIsSpace = t) :
    ∀ c, t.head? = some c → jsIsSpace c = false := by
  intro c hc
  cases t with
  | nil => cases hc
  | cons a as =>
    have ha : c = a := by
      simpa using hc.symm
    subst ha
    cases hs : jsIsSpace c
    · rfl
    · exfalso
      rw [List.dropWhile_cons, if_pos hs] at hd
      have hlen := congrArg List.length hd
      have hle := (List.dropWhile_suffix (l := as) jsIsSpace).length_le
      simp at hlen
      omega

theorem trim_head_not_space {t : List Char} (ht : jsTrim t = t) :
    ∀ c, t.head? = some c → jsIsSpace c = false :=
  head_not_space_of_dropWhile_id (dropWhile_eq_self_of_trim t ht)

theorem trim_last_not_space {t : List Char} (ht : jsTrim t = t) :
    ∀ c, t.getLast? = some c → jsIsSpace c = false := by
  intro c hc
  refine head_not_space_of_dropWhile_id (reverse_dropWhile_eq_self_of_trim t ht) c ?_
  rw [← List.getLast?_eq_head?_reverse]
  exact hc

theorem jsTrim_cons_space (l : List Char) : jsTrim (' ' :: l) = jsTrim l := by
  unfold jsTrim
  rw [List.dropWhile_cons, if_pos (by decide)]

theorem specStr_ne_nil (p : List Char × Bool × List Char) (h : SpecOk p) :
    specStr p ≠ ([] : List Char) := by
  unfold specStr
  cases hp : p.1 with
  | nil => exact absurd hp h.1
  | cons a as => simp

theorem head_specStr (p : List Char × Bool × List Char) (h : SpecOk p) :
    ∀ c, (specStr p).head? = some c → jsIsSpace c = false := by
  intro c hc
  unfold specStr at hc
  cases hp : p.1 with
  | nil => exact absurd hp h.1
  | cons a as =>
    rw [hp] at hc
    simp only [List.cons_append] at hc
    have hca : c = a := by simpa using hc.symm
    have hmem : a ∈ p.1 := by rw [hp]; exact List.mem_cons_self a as
    rw [hca]
    exact word_not_space (List.all_eq_true.mp h.2.1 a hmem)

theorem last_specStr (p : List Char × Bool × List Char) (h : SpecOk p) :
    ∀ c, (specStr p).getLast? = some c → jsIsSpace c = false := by
  intro c hc
  unfold specStr at hc
  rw [List.getLast?_append] at hc
  have hlast : (':' :: p.2.2).getLast? = some c := by
    rw [List.getLast?_cons] at hc
    cases hl : p.2.2.getLast? with
    | none => exact absurd hl (by
        intro hnone
        exact h.2.2.1 (List.getLast?_eq_none_iff.mp hnone))
    | some d =>
      rw [List.getLast?_cons, hl]
      rw [hl] at hc
      simpa using hc
  rw [List.getLast?_cons] at hlast
  cases hl : p.2.2.getLast? with
  | none => exact absurd (List.getLast?_eq_none_iff.mp hl) h.2.2.1
  | some d =>
    rw [hl] at hlast
    simp only [Option.getD_some, Option.some.injEq] at hlast
    subst hlast
    exact trim_last_not_space h.2.2.2.1 d hl

theorem jsTrim_specStr (p : List Char × Bool × List Char) (h : SpecOk p) :
    jsTrim (specStr p) = specStr p :=
  jsTrim_eq_self (head_specStr p h) (last_specStr p h)

theorem specMatch_specStr (p : List Char × Bool × List Char) (h : SpecOk p) :
    specMatch (specStr p) = some (p.1, p.2.1, p.2.2) := by
  obtain ⟨hn, hw, htne, htr, hnl, hcr, hnc, hce⟩ := h
  have hword : ∀ a ∈ p.1, isWordChar a = true := List.all_eq_true.mp hw
  have hdrop : p.2.2.dropWhile jsIsSpace = p.2.2 := dropWhile_eq_self_of_trim _ htr
  unfold specMatch specStr
  cases hopt : p.2.1
  · rw [if_neg (show ¬ ((false : Bool) = true) by simp), List.append_nil]
    rw [takeWhile_append_stop hword (by decide : isWordChar ':' = false)]
    rw [if_neg hn, List.drop_left]
    show (if List.dropWhile jsIsSpace p.2.2 ≠ ([] : List Char) then
            if (List.dropWhile jsIsSpace p.2.2).contains '\n' = true then none
            else some (p.1, (false : Bool), jsTrim (List.dropWhile jsIsSpace p.2.2))
          else
            match p.2.2.getLast? with
            | some d => if (!(d = '\n')) = true then
                some (p.1, (false : Bool), jsTrim [d]) else none
            | none => none) = some (p.1, false, p.2.2)
    rw [hdrop]
    rw [if_pos htne, if_neg (by rw [contains_eq_false_of_not_mem hnl]; exact Bool.false_ne_true),
        htr]
  · rw [if_pos (rfl : (true : Bool) = true)]
    rw [List.append_assoc, List.singleton_append]
    rw [takeWhile_append_stop hword (by decide : isWordChar '?' = false)]
    rw [if_neg hn, List.drop_left]
    show (if List.dropWhile jsIsSpace p.2.2 ≠ ([] : List Char) then
            if (List.dropWhile jsIsSpace p.2.2).contains '\n' = true then none
            else some (p.1, (true : Bool), jsTrim (List.dropWhile jsIsSpace p.2.2))
          else
            match p.2.2.getLast? with
            | some d => if (!(d = '\n')) = true then
                some (p.1, (true : Bool), jsTrim [d]) else none
            | none => none) = some (p.1, true, p.2.2)
    rw [hdrop]
    rw [if_pos htne, if_neg (by rw [contains_eq_false_of_not_mem hnl]; exact Bool.false_ne_true),
        htr]

theorem parseSpecs_ok (line : List Char) (ps : List (List Char × Bool × List Char))
    (h : ∀ p ∈ ps, SpecOk p) :
    ∀ (ctx : Ctx) (acc : List ParamSpec),
    parseSpecs line (ps.map specStr) ctx acc =
      (acc ++ ps.map (fun p => ⟨p.1, p.2.2, p.2.1⟩), ctx) := by
  induction ps with
  | nil => intro ctx acc; simp [parseSpecs]
  | cons p rest ih =>
    intro ctx acc
    simp only [List.map_cons, parseSpecs]
    rw [specMatch_specStr p (h p (List.mem_cons_self p rest))]
    dsimp only
    refine (ih (fun q hq => h q (List.mem_cons_of_mem p hq)) ctx
        (acc ++ [⟨p.1, p.2.2, p.2.1⟩])).trans ?_
    simp

theorem mem_joinComma_specStr {c : Char} (ps : List (List Char × Bool × List Char)) :
    c ∈ joinComma (ps.map specStr) → c = ',' ∨ c = ' ' ∨ ∃ p ∈ ps, c ∈ specStr p := by
  induction ps with
  | nil => intro h; simp [joinComma] at h
  | cons p rest ih =>
    cases rest with
    | nil =>
      intro h
      exact Or.inr (Or.inr ⟨p, by simp, h⟩)
    | cons q rest2 =>
      intro h
      have h2 : c ∈ specStr p ++ ',' :: ' ' :: joinComma ((q :: rest2).map specStr) := h
      rcases List.mem_append.mp h2 with h1 | h1
      · exact Or.inr (Or.inr ⟨p, List.mem_cons_self p _, h1⟩)
      · simp only [List.mem_cons] at h1
        rcases h1 with rfl | rfl | h1
        · exact Or.inl rfl
        · exact Or.inr (Or.inl rfl)
        · rcases ih h1 with hx | hx | ⟨r, hr, hcr⟩
          · exact Or.inl hx
          · exact Or.inr (Or.inl hx)
          · exact Or.inr (Or.inr ⟨r, List.mem_cons_of_mem p hr, hcr⟩)

theorem mem_specStr {c : Char} (p : List Char × Bool × List Char) :
    c ∈ specStr p → c ∈ p.1 ∨ c = '?' ∨ c = ':' ∨ c ∈ p.2.2 := by
  intro h
  unfold specStr at h
  rcases List.mem_append.mp h with h1 | h1
  · rcases List.mem_append.mp h1 with h2 | h2
    · exact Or.inl h2
    · cases hp : p.2.1 <;> rw [hp] at h2 <;> simp at h2
      exact Or.inr (Or.inl h2)
  · simp only [List.mem_cons] at h1
    rcases h1 with rfl | h1
    · exact Or.inr (Or.inr (Or.inl rfl))
    · exact Or.inr (Or.inr (Or.inr h1))

theorem not_mem_sigLine {c : Char} (name : List Char)
    (ps : List (List Char × Bool × List Char))
    (hnw : name.all isWordChar = true) (hps : ∀ p ∈ ps, SpecOk p)
    (hcw : isWordChar c = false) (hc1 : c ≠ '(') (hc2 : c ≠ ')')
    (hc3 : c ≠ ',') (hc4 : c ≠ ' ') (hc5 : c ≠ '?') (hc6 : c ≠ ':')
    (hct : ∀ p ∈ ps, c ∉ p.2.2) :
    c ∉ sigLine name ps := by
  intro hm
  unfold sigLine at hm
  rcases List.mem_append.mp hm with h1 | h1
  · rw [List.all_eq_true.mp hnw c h1] at hcw
    cases hcw
  · simp only [List.mem_cons] at h1
    rcases h1 with rfl | h1
    · exact hc1 rfl
    · rcases List.mem_append.mp h1 with h2 | h2
      · rcases mem_joinComma_specStr ps h2 with hx | hx | ⟨p, hp, hcp⟩
        · exact hc3 hx
        · exact hc4 hx
        · rcases mem_specStr p hcp with hy | hy | hy | hy
          · rw [List.all_eq_true.mp (hps p hp).2.1 c hy] at hcw
            cases hcw
          · exact hc5 hy
          · exact hc6 hy
          · exact hct p hp hy
      · simp only [List.mem_singleton] at h2
        exact hc2 h2

theorem sigLine_ne_nil (name : List Char)
    (ps : List (List Char × Bool × List Char)) (hn : name ≠ ([] : List Char)) :
    sigLine name ps ≠ ([] : List Char) := by
  unfold sigLine
  cases hm : name with
  | nil => exact absurd hm hn
  | cons a as => simp

theorem jsTrim_sigLine (name : List Char)
    (ps : List (List Char × Bool × List Char))
    (hn : name ≠ ([] : List Char)) (hnw : name.all isWordChar = true) :
    jsTrim (sigLine name ps) = sigLine name ps := by
  refine jsTrim_eq_self ?_ ?_
  · intro c hc
    unfold sigLine at hc
    cases hm : name with
    | nil => exact absurd hm hn
    | cons a as =>
      rw [hm] at hc
      simp only [List.cons_append] at hc
      have hca : c = a := by simpa using hc.symm
      rw [hca]
      exact word_not_space (List.all_eq_true.mp hnw a (by rw [hm]; exact List.mem_cons_self a as))
  · intro c hc
    unfold sigLine at hc
    rw [List.getLast?_append] at hc
    have : (('(' :: (joinComma (ps.map specStr) ++ [')'])).getLast?) = some ')' := by
      rw [List.getLast?_cons]
      rw [List.getLast?_append, List.getLast?_singleton]
      rfl
    rw [this] at hc
    simp only [Option.or_some, Option.some.injEq] at hc
    subst hc
    decide

theorem sigMatch_sigLine (name : List Char)
    (ps : List (List Char × Bool × List Char))
    (hn : name ≠ ([] : List Char)) (hnw : name.all isWordChar = true)
    (hps : ∀ p ∈ ps, SpecOk p) :
    sigMatch (sigLine name ps) = some (name, joinComma (ps.map specStr)) := by
  have hword : ∀ a ∈ name, isWordChar a = true := List.all_eq_true.mp hnw
  have hnl : '\n' ∉ joinComma (ps.map specStr) := by
    intro hm
    rcases mem_joinComma_specStr ps hm with hx | hx | ⟨p, hp, hcp⟩
    · exact absurd hx (by decide)
    · exact absurd hx (by decide)
    · rcases mem_specStr p hcp with hy | hy | hy | hy
      · exact absurd (List.all_eq_true.mp (hps p hp).2.1 _ hy) (by decide)
      · exact absurd hy (by decide)
      · exact absurd hy (by decide)
      · exact (hps p hp).2.2.2.2.1 hy
  unfold sigMatch sigLine
  rw [takeWhile_append_stop hword (by decide : isWordChar '(' = false)]
  rw [if_neg hn, List.drop_left]
  show (match (joinComma (ps.map specStr) ++ [')']).getLast? with
        | some ')' =>
          if (joinComma (ps.map specStr) ++ [')']).dropLast.contains '\n' = true then none
          else some (name, (joinComma (ps.map specStr) ++ [')']).dropLast)
        | _ => none) = some (name, joinComma (ps.map specStr))
  rw [List.getLast?_append, List.getLast?_singleton]
  show (if (joinComma (ps.map specStr) ++ [')']).dropLast.contains '\n' = true then none
        else some (name, (joinComma (ps.map specStr) ++ [')']).dropLast)) =
    some (name, joinComma (ps.map specStr))
  rw [List.dropLast_concat]
  rw [if_neg (by rw [contains_eq_false_of_not_mem hnl]; exact Bool.false_ne_true)]

theorem parseSignature_sigLine (name : List Char)
    (ps : List (List Char × Bool × List Char))
    (hn : name ≠ ([] : List Char)) (hnw : name.all isWordChar = true)
    (hps : ∀ p ∈ ps, SpecOk p) (ctx : Ctx) :
    parseSignature (sigLine name ps) ctx =
      { ctx with parentComponent :=
          (some ⟨name, some (ps.map (fun p => ⟨p.1, p.2.2, p.2.1⟩))⟩ :
            Option ParentComp) } := by
  unfold parseSignature
  rw [jsTrim_sigLine name ps hn hnw]
  dsimp only
  rw [sigMatch_sigLine name ps hn hnw hps]
  dsimp only
  cases ps with
  | nil => rfl
  | cons p rest =>
    rw [signatureSplit_joinComma rest p (hps p (List.mem_cons_self p rest))
        (fun q hq => hps q (List.mem_cons_of_mem p hq))]
    have hmap : (specStr p :: rest.map (fun q => ' ' :: specStr q)).map jsTrim =
        specStr p :: rest.map specStr := by
      simp only [List.map_cons, List.map_map]
      rw [jsTrim_specStr p (hps p (List.mem_cons_self p rest))]
      congr 1
      refine List.map_congr_left ?_
      intro q hq
      show jsTrim (' ' :: specStr q) = specStr q
      rw [jsTrim_cons_space, jsTrim_specStr q (hps q (List.mem_cons_of_mem p hq))]
    rw [hmap]
    rw [List.filter_eq_self.mpr (by
      intro a ha
      simp only [List.mem_cons, List.mem_map] at ha
      rcases ha with rfl | ⟨q, hq, rfl⟩
      · simp [specStr_ne_nil p (hps p (List.mem_cons_self p rest))]
      · simp [specStr_ne_nil q (hps q (List.mem_cons_of_mem p hq))])]
    rw [show specStr p :: rest.map specStr = (p :: rest).map specStr from rfl]
    rw [parseSpecs_ok (sigLine name (p :: rest)) (p :: rest) hps ctx []]
    rfl

/-- Claim C4: a first line `Name(p1:t1, p2?:t2, ...)` built from a word
name and well-formed parameter specs parses to a component named `Name`
whose parameter list preserves declaration order with the optional flag set
exactly where the `?` marker appears; commas inside parentheses of a type
(e.g. `Map(string, int)`) do not split the parameter list, because the
split lookahead `,(?![^(]*\))` refuses a comma that can reach a `)` through
non-`(` characters. -/
theorem c4_signature_params (name : List Char)
    (ps : List (List Char × Bool × List Char))
    (hn : name ≠ ([] : List Char)) (hnw : name.all isWordChar = true)
    (hps : ∀ p ∈ ps, SpecOk p) :
    parseLunor (sigLine name ps) =
      { ast := [], diagnostics := [],
        component := some ⟨name, some (ps.map (fun p => ⟨p.1, p.2.2, p.2.1⟩))⟩,
        imports := [] } := by
  have hnl : '\n' ∉ sigLine name ps :=
    not_mem_sigLine name ps hnw hps (by decide) (by decide) (by decide)
      (by decide) (by decide) (by decide) (by decide)
      (fun p hp => (hps p hp).2.2.2.2.1)
  have hcr : '\r' ∉ sigLine name ps :=
    not_mem_sigLine name ps hnw hps (by decide) (by decide) (by decide)
      (by decide) (by decide) (by decide) (by decide)
      (fun p hp => (hps p hp).2.2.2.2.2.1)
  have htrim := jsTrim_sigLine name ps hn hnw
  have hlines : jsLines (sigLine name ps) = [sigLine name ps] := by
    unfold jsLines
    rw [splitNl_no_nl hnl]
    simp only [List.map_cons, List.map_nil]
    rw [stripCR_no_cr hcr]
  unfold parseLunor
  rw [hlines]
  dsimp only
  split
  · rename_i hcond
    simp only [List.headD_cons, List.isEmpty_cons, Bool.false_or,
      decide_eq_true_eq] at hcond
    rw [htrim] at hcond
    exact absurd hcond (sigLine_ne_nil name ps hn)
  · rw [processLines_cons]
    have hpl : processLine initCtx (sigLine name ps) =
        parseSignature (sigLine name ps) initCtx := by
      unfold processLine
      rw [htrim, if_neg (sigLine_ne_nil name ps hn),
          if_pos (show initCtx.currentLine = 0 from rfl)]
    rw [hpl, parseSignature_sigLine name ps hn hnw hps initCtx]
    rfl

/-- Witness for C4 at `Card(title:string, meta?:Map(string, int))`: the
second type keeps its internal comma. -/
theorem c4_signature_params_witness :
    parseLunor (sigLine (chars ("Card"))
        [(chars ("title"), false, chars ("string")),
         (chars ("meta"), true, chars ("Map(string, int)"))]) =
      { ast := [], diagnostics := [],
        component := some ⟨chars ("Card"),
          some [⟨chars ("title"), chars ("string"), false⟩,
                ⟨chars ("meta"), chars ("Map(string, int)"), true⟩]⟩,
        imports := [] } :=
  c4_signature_params (chars ("Card"))
    [(chars ("title"), false, chars ("string")),
     (chars ("meta"), true, chars ("Map(string, int)"))]
    (by decide) (by decide) (by decide)
